import Mathlib

/-!
Verification development for the rowhouse unfurl engine.

This file gives a shallow embedding of the core of the repository:

* `src/unfurl/json_processor.py` — `JsonProcessor._extract_path`,
  `JsonProcessor._traverse`, `JsonProcessor.set_file_metadata`,
  `JsonProcessor._create_dataframes` (row-building part);
* `src/validation/validator.py` — `DataValidator.to_numeric` /
  `DataValidator.to_integer` (value cleaning, overflow detection) and the
  per-type coercion dispatch of `JsonProcessor._enforce_datatypes`.

Documents are modelled as a JSON value tree, rows as insertion-ordered
association lists mirroring Python dicts, and the recursive traversal as a
fuel-indexed structural recursion `traverseF` wrapped by `traverse` with
fuel `jsize data + 1`; every recursive call of the Python code strictly
decreases the size of the document argument, and fuel-irrelevance is proved
below (`traverseF_irrel`), so the wrapper computes the same function as the
Python recursion.  Numbers extracted from strings are modelled as exact
rationals; the float64 rounding that `float(...)` / `pd.to_numeric`
performs on large integers — which is what decides the int64-boundary
behaviour of `safe_int` — is modelled exactly by `froundInt`
(round-to-nearest, ties-to-even, on integers).
-/

namespace Rowhouse

/-- A JSON-like document value: object, array or scalar
(`Document` in the data model). -/
inductive Json where
  | null : Json
  | bool (b : Bool) : Json
  | num (q : ℚ) : Json
  | str (s : String) : Json
  | arr (items : List Json) : Json
  | obj (entries : List (String × Json)) : Json

mutual

/-- Structural size of a JSON value, used as the fuel bound of the
traversal: every recursive call of `_traverse` passes a strictly smaller
piece of the document. -/
def jsize : Json → Nat
  | Json.null => 1
  | Json.bool _ => 1
  | Json.num _ => 1
  | Json.str _ => 1
  | Json.arr items => 1 + jsizeList items
  | Json.obj entries => 1 + jsizeEntries entries

/-- Size of a list of JSON values. -/
def jsizeList : List Json → Nat
  | [] => 0
  | x :: xs => 1 + jsize x + jsizeList xs

/-- Size of the entry list of a JSON object. -/
def jsizeEntries : List (String × Json) → Nat
  | [] => 0
  | (_, v) :: rest => 1 + jsize v + jsizeEntries rest

end

/-- A row being accumulated during traversal: a Python dict from alias to
raw value, modelled as an insertion-ordered association list. -/
abbrev Row := List (String × Json)

/-- Python dict assignment `d[k] = v`: replace in place if the key exists
(keeping its original position), otherwise append at the end. -/
def rowInsert : Row → String × Json → Row
  | [], kv => [kv]
  | (k, v) :: rest, (k', v') =>
    if k = k' then (k, v') :: rest else (k, v) :: rowInsert rest (k', v')

/-- Python `combined = row.copy(); combined.update(extra)`. -/
def mergeRow (base extra : Row) : Row := extra.foldl rowInsert base

/-- The keys of a row, in order. -/
def rowKeys (r : Row) : List String := r.map Prod.fst

/-- Python dict lookup `r[a]` (first entry with the key; rows built through
`rowInsert` never hold duplicate keys). -/
def rowLookup (r : Row) (a : String) : Option Json :=
  (r.find? (fun p => decide (p.1 = a))).map Prod.snd

/-- One step of the cartesian combination used by `_traverse`:
`for row in rows: for partial_row in news: combined = row.copy();
combined.update(partial_row); new_rows.append(combined)`. -/
def prodCombine (rows news : List Row) : List Row :=
  rows.flatMap (fun r => news.map (fun p => mergeRow r p))

/-- Lookup of a key in the entry list of a JSON object (Python
`key in data` / `data[key]`; dict keys are unique). -/
def jLookup (entries : List (String × Json)) (k : String) : Option Json :=
  (entries.find? (fun p => decide (p.1 = k))).map Prod.snd

/-- `data[key]` when `data` is a dict, `none` otherwise (Python code always
guards element access with `isinstance(data, dict) and key in data`). -/
def jGet : Json → String → Option Json
  | Json.obj entries, k => jLookup entries k
  | _, _ => none

/-- Whether a JSON value is an array (`isinstance(x, list)`). -/
def Json.isArr : Json → Bool
  | Json.arr _ => true
  | _ => false

/-- Whether a JSON value is an object (`isinstance(x, dict)`). -/
def Json.isObj : Json → Bool
  | Json.obj _ => true
  | _ => false

/-- One declared output column (`{"source": ..., "alias": ...}` in the
field configuration; the declared type is handled by the separate coercion
model below and is not needed for traversal). -/
structure Field where
  source : String
  aliasName : String

/-- A table configuration: the ordered field list of one discriminator
value (`config['fields']`). -/
structure Config where
  fields : List Field

/-! ### Field path parsing (`JsonProcessor._extract_path`) -/

/-- Python `s.split(c)` for a single-character separator:
`"".split(".") = [""]`, `"a.b".split(".") = ["a", "b"]`. -/
def splitOnChar (c : Char) : List Char → List (List Char)
  | [] => [[]]
  | x :: rest =>
    match splitOnChar c rest with
    | [] => [[]]
    | g :: gs => if x = c then [] :: g :: gs else (x :: g) :: gs

/-- Python `'[]' in part`: whether the two-character marker occurs. -/
def containsBrack : List Char → Bool
  | '[' :: ']' :: _ => true
  | _ :: rest => containsBrack rest
  | [] => false

/-- Python `part.replace('[]', '')`: drop every (non-overlapping,
left-to-right) occurrence of the two-character marker. -/
def stripBrack : List Char → List Char
  | '[' :: ']' :: rest => stripBrack rest
  | x :: rest => x :: stripBrack rest
  | [] => []

/-- `JsonProcessor._extract_path`: split the source string on `'.'`, record
whether any segment carries the array marker `[]`, and strip the marker
from every segment.  Total: the Python code raises no exception on any
input (empty input gives the single empty segment). -/
def extract_path (source : String) : List String × Bool :=
  let parts := splitOnChar '.' source.data
  (parts.map (fun p => String.mk (stripBrack p)), parts.any containsBrack)

/-- Modelled from the spec: the Field Path Model of spec §4.1 / §7, which
"fails with `InvalidFieldSpec`" on empty input.  No such error exists in
`src/`; this definition follows the spec's words so that it can be compared
with `extract_path`, the embedding of the code. -/
def extract_path_spec (source : String) : Except String (List String × Bool) :=
  if source = "" then Except.error "InvalidFieldSpec"
  else Except.ok (extract_path source)

/-! ### Traversal stages (`JsonProcessor._traverse`, recursive case) -/

/-- First segment of a field source with the array marker stripped
(`field['source'].split('.')[0].replace('[]', '')`). -/
def headKey (source : String) : String :=
  String.mk (stripBrack (match splitOnChar '.' source.data with
    | [] => []
    | p :: _ => p))

/-- Append a key if it is not already present. -/
def insertKey (ks : List String) (k : String) : List String :=
  if k ∈ ks then ks else ks ++ [k]

/-- The distinct first segments of all field sources
(`top_level_keys = set(...)` in `_traverse`).  Python iterates this set in
a fixed but unspecified order, the same order in the gathering and in the
combining loop; the model fixes first-occurrence order, which is one such
consistent order. -/
def topLevelKeys (cfg : Config) : List String :=
  cfg.fields.foldl (fun ks f => insertKey ks (headKey f.source)) []

/-- Whether a top-level key is used as an array in any field
(`field['source'].startswith(f'{key}[]')`). -/
def isArrayKey (cfg : Config) (key : String) : Bool :=
  cfg.fields.any (fun f => List.isPrefixOf (key.data ++ [ '[', ']' ]) f.source.data)

/-- Leaf handling on the remaining path suffix: when exactly one segment
remains and its key is present in the current dict, write the value under
the field's alias (`current_row[field['alias']] = data[key]`). -/
def leafStepAux (data : Json) (a : String) (r : Row) : List String → Row
  | [leafKey] =>
    match jGet data leafKey with
    | some v => rowInsert r (a, v)
    | none => r
  | _ => r

/-- One field's contribution to `current_row`: skip fields whose parsed
path does not extend `pathParts` (`path[:len(path_parts)] != path_parts:
continue`), otherwise apply the leaf rule to the remaining suffix. -/
def leafStep (data : Json) (pathParts : List String) (r : Row) (f : Field) : Row :=
  if (extract_path f.source).1.take pathParts.length = pathParts then
    leafStepAux data f.aliasName r ((extract_path f.source).1.drop pathParts.length)
  else r

/-- First pass of the recursive case of `_traverse`, restricted to the leaf
assignments, folding over the fields in configuration order.
(The Python code builds `current_row` and `paths_to_recurse` in one loop;
the two outputs are independent, so they are modelled as two folds over
the same field list in the same order.) -/
def leafRow (data : Json) (pathParts : List String) (rowSoFar : Row) (cfg : Config) : Row :=
  cfg.fields.foldl (leafStep data pathParts) rowSoFar

/-- Insertion into `paths_to_recurse`: deduplicate on the next key, keep
the first-seen data, OR together the array flags
(`paths_to_recurse[...]['has_array'] = True` when any field marks it). -/
def branchInsert : List (String × Json × Bool) → String → Json → Bool →
    List (String × Json × Bool)
  | [], k, d, b => [(k, d, b)]
  | (k', d', b') :: rest, k, d, b =>
    if k' = k then (k', d', b' || b) :: rest
    else (k', d', b') :: branchInsert rest k d b

/-- Branch recording on the remaining path suffix: when two or more
segments remain, the next key identifies a nested branch; record it when
present in the current dict (`isinstance(data, dict) and key in data`). -/
def branchStepAux (data : Json) (isArrFlag : Bool) (bs : List (String × Json × Bool)) :
    List String → List (String × Json × Bool)
  | key :: _ :: _ =>
    match jGet data key with
    | some sub => branchInsert bs key sub isArrFlag
    | none => bs
  | _ => bs

/-- One field's contribution to `paths_to_recurse`: skip non-matching
paths, otherwise apply the branch rule to the remaining suffix, carrying
the field's array flag. -/
def branchStep (data : Json) (pathParts : List String)
    (bs : List (String × Json × Bool)) (f : Field) : List (String × Json × Bool) :=
  if (extract_path f.source).1.take pathParts.length = pathParts then
    branchStepAux data (extract_path f.source).2 bs
      ((extract_path f.source).1.drop pathParts.length)
  else bs

/-- First pass of the recursive case of `_traverse`, restricted to
`paths_to_recurse`: for every field whose parsed path extends `pathParts`
by two or more segments and whose next key is present in the current dict,
record the nested value under that key, deduplicated, with the array flag. -/
def branchesOf (data : Json) (pathParts : List String) (cfg : Config) :
    List (String × Json × Bool) :=
  cfg.fields.foldl (branchStep data pathParts) []

/-- The branches routed to the array loop: marked as array and the value is
a list (`is_in_array and isinstance(next_data, list)`). -/
def arrayPathsOf (data : Json) (pathParts : List String) (cfg : Config) :
    List (String × Json × Bool) :=
  (branchesOf data pathParts cfg).filter (fun b => b.2.2 && b.2.1.isArr)

/-- The branches routed to the dict loop: not an array branch and the value
is a dict (`elif isinstance(next_data, dict)`). -/
def dictPathsOf (data : Json) (pathParts : List String) (cfg : Config) :
    List (String × Json × Bool) :=
  (branchesOf data pathParts cfg).filter
    (fun b => !(b.2.2 && b.2.1.isArr) && b.2.1.isObj)

/-- The array loop of `_traverse` after the per-element sub-rows have been
computed: each entry is `(sub_rows_for_array, next_data is empty)`.
Non-empty sub-row lists are appended to `all_sub_results`; an empty
sub-row list coming from an empty array sets `empty_array_encountered`
and breaks, which makes the whole call return no rows (`none` here);
an empty sub-row list from a non-empty array contributes nothing. -/
def arrKill : List (List Row × Bool) → Option (List (List Row))
  | [] => some []
  | (sub, isEmp) :: rest =>
    if sub.isEmpty then (if isEmp then none else arrKill rest)
    else (arrKill rest).map (fun ls => sub :: ls)

/-- `JsonProcessor._traverse`, indexed by fuel.  Fuel only has to dominate
the recursion depth; `traverse` below instantiates it with
`jsize data + 1`, which always suffices (`traverse_eq_traverseF`). -/
def traverseF : Nat → Json → List String → Row → Config → List Row
  | 0, _, _, _, _ => []
  | fuel + 1, data, pathParts, rowSoFar, cfg =>
    match pathParts with
    | [] =>
      -- top-level cartesian product
      let results := (topLevelKeys cfg).map (fun key =>
        match jGet data key with
        | some (Json.arr items) =>
          if isArrayKey cfg key then
            -- explode the array at top level; `extend` only non-empty
            -- per-element results, which is exactly `flatMap`
            items.flatMap (fun it => traverseF fuel it [key] [] cfg)
          else traverseF fuel (Json.arr items) [key] [] cfg
        | some keyData => traverseF fuel keyData [key] [] cfg
        | none => [])
      -- `if not partial_results[key]: partial_results[key] = [{}]`,
      -- then pairwise cartesian combination starting from `rows = [{}]`
      (results.map (fun p => if p.isEmpty then [([] : Row)] else p)).foldl
        prodCombine [[]]
    | _ =>
      let currentRow := leafRow data pathParts rowSoFar cfg
      let dictResults :=
        ((dictPathsOf data pathParts cfg).map
          (fun b => traverseF fuel b.2.1 (pathParts ++ [b.1]) [] cfg)).filter
          (fun l => !l.isEmpty)
      let arrayComputed :=
        (arrayPathsOf data pathParts cfg).map (fun b =>
          match b.2.1 with
          | Json.arr items =>
            (items.flatMap (fun it => traverseF fuel it (pathParts ++ [b.1]) [] cfg),
              items.isEmpty)
          | _ => (([] : List Row), false))
      match arrKill arrayComputed with
      | none => []
      | some arrResults =>
        let allSub := dictResults ++ arrResults
        if !allSub.isEmpty then
          -- `[current_row.copy()] if current_row else [{}]`; both branches
          -- equal `[currentRow]` since the else branch fires exactly when
          -- `currentRow` is the empty dict
          allSub.foldl prodCombine [currentRow]
        else if !currentRow.isEmpty then [currentRow]
        else []

/-- `JsonProcessor._traverse`. -/
def traverse (data : Json) (pathParts : List String) (rowSoFar : Row) (cfg : Config) :
    List Row :=
  traverseF (jsize data + 1) data pathParts rowSoFar cfg

/-- The per-key partial result set of the top-level case of `_traverse`
(`partial_results[key]` before placeholder substitution), phrased with the
fuel-free wrapper. -/
def branchResult (data : Json) (key : String) (cfg : Config) : List Row :=
  match jGet data key with
  | some (Json.arr items) =>
    if isArrayKey cfg key then items.flatMap (fun it => traverse it [key] [] cfg)
    else traverse (Json.arr items) [key] [] cfg
  | some keyData => traverse keyData [key] [] cfg
  | none => []

/-! ### float64 rounding of integers

`DataValidator.to_integer.safe_int` computes `float(x)` and compares the
result against the int64 bounds.  For integers beyond `2^53` this float
conversion rounds (IEEE-754 round-to-nearest, ties to even), which is
exactly what decides the behaviour at the int64 boundary, so it is
modelled exactly on integers. -/

/-- Number of binary digits of a natural number, fuel-driven so that the
kernel evaluates it by `rfl`/`decide`; 128 steps dominate every number in
this development. -/
def bitLenAux : Nat → Nat → Nat
  | 0, _ => 0
  | fuel + 1, n => if n = 0 then 0 else bitLenAux fuel (n / 2) + 1

/-- Number of binary digits (`bitLen 1 = 1`, `bitLen (2^63) = 64`). -/
def bitLen (n : Nat) : Nat := bitLenAux 128 n

/-- Round an integer to the nearest multiple of `m`, ties to the even
multiple. -/
def roundMulNE (n m : Int) : Int :=
  let q := n.fdiv m
  let r := n.fmod m
  if 2 * r < m then q * m
  else if 2 * r > m then (q + 1) * m
  else if q % 2 = 0 then q * m else (q + 1) * m

/-- `float(n)` on an integer `n`: the nearest double-precision value.
Magnitudes up to `2^53` are exact; above that the unit in the last place
of a number with `b` bits is `2^(b-53)`. -/
def froundInt (n : Int) : Int :=
  if n.natAbs ≤ 2 ^ 53 then n
  else roundMulNE n ((2 : Int) ^ (bitLen n.natAbs - 53))

/-- `np.iinfo(np.int64).max`. -/
def int64Max : Int := 2 ^ 63 - 1

/-- `np.iinfo(np.int64).min`. -/
def int64Min : Int := -(2 ^ 63)

/-! ### `DataValidator.to_numeric` (`clean_value`) -/

/-- The ASCII whitespace stripped by Python `str.strip()` and matched by
the regex class `\s`. -/
def isPySpace (c : Char) : Bool :=
  c == ' ' || c == '\t' || c == '\n' || c == '\r' || c == '\x0b' || c == '\x0c'

/-- Python `str(x).strip()`. -/
def pyStrip (cs : List Char) : List Char :=
  ((cs.dropWhile isPySpace).reverse.dropWhile isPySpace).reverse

/-- The character class of `re.sub(r'[$€£¥₹\s]', '', s)`. -/
def isCurrencyOrSpace (c : Char) : Bool :=
  c == '$' || c == '€' || c == '£' || c == '¥' || c == '₹' || isPySpace c

/-- `re.sub(r',(?=\d{3}(?:[,.]|$))', '', s)`: drop a comma whenever it is
followed by exactly three digits and then another separator, a decimal
point, or the end of the string; scanning resumes after the dropped comma
(the lookahead consumes nothing), matching `re.sub`'s left-to-right pass. -/
def removeThousands : List Char → List Char
  | [] => []
  | ',' :: rest =>
    (match rest with
     | d1 :: d2 :: d3 :: tail =>
       if d1.isDigit && d2.isDigit && d3.isDigit &&
          (tail.isEmpty || tail.headD ' ' == ',' || tail.headD ' ' == '.') then
         removeThousands rest
       else ',' :: removeThousands rest
     | _ => ',' :: removeThousands rest)
  | c :: rest => c :: removeThousands rest

/-- The `valid_chars` filter of `clean_value`
(`'0123456789.'` plus `'-'` when negatives are allowed). -/
def isValidNumChar (allowNeg : Bool) (c : Char) : Bool :=
  c.isDigit || c == '.' || (allowNeg && c == '-')

/-- Value of a digit string. -/
def digitsToNat (ds : List Char) : Nat :=
  ds.foldl (fun n c => 10 * n + (c.toNat - '0'.toNat)) 0

/-- An exact decimal number `mant / 10 ^ scale`.  The pipeline's values
are represented unnormalized in this form so that every operation is
plain integer arithmetic, which the kernel evaluates (rational
normalization does not reduce definitionally); `Dec.toRat` gives the
represented rational. -/
structure Dec where
  mant : Int
  scale : Nat
deriving DecidableEq

/-- The rational value a `Dec` stands for. -/
def Dec.toRat (d : Dec) : ℚ := (d.mant : ℚ) / (10 : ℚ) ^ d.scale

/-- Parse an unsigned decimal literal (`"25"`, `"1234.56"`, `".5"`,
`"5."`); anything else — in particular the empty string — is rejected, as
Python `float(...)` / `pd.to_numeric(errors='coerce')` reject it. -/
def parseDecCore (cs : List Char) : Option Dec :=
  match splitOnChar '.' cs with
  | [ip] =>
    if !ip.isEmpty && ip.all Char.isDigit then
      some ⟨(digitsToNat ip : Int), 0⟩
    else none
  | [ip, fp] =>
    if !(ip ++ fp).isEmpty && (ip ++ fp).all Char.isDigit then
      some ⟨(digitsToNat ip : Int) * 10 ^ fp.length + (digitsToNat fp : Int), fp.length⟩
    else none
  | _ => none

/-- Parse a decimal literal with an optional leading minus sign. -/
def parseDec (cs : List Char) : Option Dec :=
  match cs with
  | '-' :: rest => (parseDecCore rest).map (fun d => ⟨-d.mant, d.scale⟩)
  | _ => parseDecCore cs

/-- Outcome of `clean_value`: Python returns `None`, a float (the percent
branch) or a cleaned numeric string. -/
inductive CleanResult where
  | isNone : CleanResult
  | isNum (d : Dec) : CleanResult
  | isStr (cs : List Char) : CleanResult

/-- `to_numeric.clean_value` on a non-null value, together with the
warnings it adds (`allow_negative` is left at its default `True`, which is
what `JsonProcessor` uses). -/
def clean_value (x : String) : CleanResult × List String :=
  let s0 := pyStrip x.data
  let s1 := s0.filter (fun c => !isCurrencyOrSpace c)
  let s2 := removeThousands s1
  if s2.getLast? == some '%' then
    -- `float(s) / 100`: exact division by 100 shifts the scale by two
    match parseDec s2.dropLast with
    | some d => (CleanResult.isNum ⟨d.mant, d.scale + 2⟩, [])
    | none => (CleanResult.isNone, [])
  else
    let cleaned := s2.filter (isValidNumChar true)
    if cleaned.count '.' > 1 || cleaned.count '-' > 1 then
      (CleanResult.isNone, ["Invalid numeric format"])
    else if cleaned.contains '-' && !(cleaned.headD ' ' == '-') then
      (CleanResult.isNone, ["Invalid negative format"])
    else if cleaned.isEmpty then (CleanResult.isNone, [])
    else (CleanResult.isStr cleaned, [])

/-- `DataValidator.to_numeric` on one non-null value: clean, then
`pd.to_numeric(..., errors='coerce')`, unparseable values becoming null. -/
def to_numeric_val (x : String) : Option Dec × List String :=
  match clean_value x with
  | (CleanResult.isNone, w) => (none, w)
  | (CleanResult.isNum d, w) => (some d, w)
  | (CleanResult.isStr cs, w) =>
    match parseDec cs with
    | some d => (some d, w)
    | none => (none, w)

/-! ### `DataValidator.to_integer` (`safe_int`) -/

/-- Whether a decimal value represents an integer. -/
def Dec.isInt (d : Dec) : Bool := decide (d.mant % (10 : Int) ^ d.scale = 0)

/-- The integer value of an integral `Dec`. -/
def Dec.intVal (d : Dec) : Int := d.mant / (10 : Int) ^ d.scale

/-- The represented value is strictly above the integer `b`
(`10 ^ scale > 0`, so the comparison clears denominators exactly). -/
def Dec.gtInt (d : Dec) (b : Int) : Bool := decide (d.mant > b * (10 : Int) ^ d.scale)

/-- The represented value is strictly below the integer `b`. -/
def Dec.ltInt (d : Dec) (b : Int) : Bool := decide (d.mant < b * (10 : Int) ^ d.scale)

/-- `np.int64(float_val)`: truncation toward zero. -/
def Dec.trunc (d : Dec) : Int :=
  let p : Int := (10 : Int) ^ d.scale
  if 0 ≤ d.mant then d.mant / p else -((-d.mant) / p)

/-- The double-precision value that reaches the comparisons of `safe_int`:
an integral value has been rounded to the nearest float64 (`froundInt`),
whether it was stored as float64 by `pd.to_numeric` or passed through
`float(x)` from an int64; a non-integral value is kept exact, which is
faithful for every comparison made here, since the int64 bounds are
integral and far beyond the magnitudes at which fractional values occur
in these claims. -/
def floatOfDec (d : Dec) : Dec :=
  if d.isInt then ⟨froundInt d.intVal, 0⟩ else d

/-- `to_integer.safe_int` on a non-null numeric value: compare the float
value against the int64 bounds, recording a hard error and nulling the
value on overflow/underflow, otherwise truncate to an integer. -/
def safe_int (q : Dec) : Option Int × List String :=
  let fv := floatOfDec q
  if fv.gtInt int64Max then (none, ["Integer overflow: exceeds int64 max"])
  else if fv.ltInt int64Min then (none, ["Integer underflow: below int64 min"])
  else (some fv.trunc, [])

/-- `safe_int` as it runs on a value taken from an int64 column:
`float(x)` rounds the integer to the nearest float64 before the bound
checks and the final conversion. -/
def safe_int_int (v : Int) : Option Int × List String :=
  let fv := froundInt v
  if fv > int64Max then (none, ["Integer overflow: exceeds int64 max"])
  else if fv < int64Min then (none, ["Integer underflow: below int64 min"])
  else (some fv, [])

/-- Warning and error lists of a `ValidationResult`
(`add_warning` / `add_error`). -/
structure Diagnostics where
  warnings : List String
  errors : List String
deriving DecidableEq

/-- `DataValidator.to_integer` over a column of raw strings (`none` is a
null marker and passes through as `pd.NA`): per value, numeric cleaning
(warnings) followed by `safe_int` (hard errors).  The batch-level
truncation warning is not modelled; it adds no per-value information. -/
def to_integer_col (col : List (Option String)) : List (Option Int) × Diagnostics :=
  col.foldr
    (fun x acc =>
      match x with
      | none => (none :: acc.1, acc.2)
      | some s =>
        match to_numeric_val s with
        | (none, w) => (none :: acc.1, ⟨w ++ acc.2.warnings, acc.2.errors⟩)
        | (some q, w) =>
          let r := safe_int q
          (r.1 :: acc.1, ⟨w ++ acc.2.warnings, r.2 ++ acc.2.errors⟩))
    ([], ⟨[], []⟩)

/-! ### The coercion layer on already-typed columns
(`_enforce_datatypes` with smart coercion) -/

/-- A column that already has its declared dtype (timestamps as
microseconds since the epoch; `none` is the null marker of the nullable
dtypes). -/
inductive TypedCol where
  | floatCol (vs : List (Option ℚ))
  | intCol (vs : List (Option Int))
  | boolCol (vs : List (Option Bool))
  | timeCol (vs : List (Option Int))
  | strCol (vs : List (Option String))
deriving DecidableEq

/-- The sentinel normalization `_enforce_datatypes` runs before any
conversion: `df[col].replace({'nan': None, 'NaN': None, 'NAN': None})`.
Only string values can match the sentinels. -/
def sentinelNull (v : Option String) : Option String :=
  if v = some "nan" ∨ v = some "NaN" ∨ v = some "NAN" then none else v

/-- `to_boolean.convert_bool` on a boolean input: `True` is the first
element of the default true-set and `False` the first element of the
default false-set, so each maps to itself; `pd.NA` passes through at the
column level. -/
def convert_bool_bool (b : Bool) : Option Bool :=
  if b then some true else some false

/-- `_enforce_datatypes` with smart coercion applied to a column already
of its declared type, returning the column and the accumulated
fatal/error diagnostics.  Per type, reading the source: the sentinel
replacement only affects string values; `to_numeric` returns a
numeric-dtype column unchanged (`is_numeric_dtype` early return, and
`astype('Float64')` is the identity on it); `to_integer` has no such early
return — `to_numeric` passes the int64 column through, but `safe_int` is
still mapped over it, so every value takes the `float(x)` round trip;
`to_boolean` maps `convert_bool` over the values; `pd.to_datetime` returns
an already-datetime column unchanged (the first format attempt succeeds
as pandas ignores `format` for datetime64 input), and the
`astype('datetime64[us]')` is the identity on it; a string column under
`astype('string[pyarrow]')` is returned as stored. -/
def enforceTyped : TypedCol → TypedCol × List String
  | TypedCol.floatCol vs => (TypedCol.floatCol vs, [])
  | TypedCol.intCol vs =>
    let rs := vs.map (fun v =>
      match v with
      | none => ((none : Option Int), ([] : List String))
      | some n => safe_int_int n)
    (TypedCol.intCol (rs.map Prod.fst), rs.flatMap Prod.snd)
  | TypedCol.boolCol vs =>
    (TypedCol.boolCol (vs.map (fun v => v.bind convert_bool_bool)), [])
  | TypedCol.timeCol vs => (TypedCol.timeCol vs, [])
  | TypedCol.strCol vs => (TypedCol.strCol (vs.map sentinelNull), [])

/-! ### Assembly metadata (`set_file_metadata` / `_create_dataframes`) -/

/-- The metadata state of a `JsonProcessor`: `self.filepath` and
`self.last_modified`, both `None` after `__init__`. -/
structure ProcState where
  filepath : Option String
  last_modified : Option String

/-- The state set up by `JsonProcessor.__init__`. -/
def initState : ProcState := ⟨none, none⟩

/-- `JsonProcessor.set_file_metadata`: sets both fields. -/
def set_file_metadata (st : ProcState) (filepath last_modified : String) : ProcState :=
  let _ := st
  ⟨some filepath, some last_modified⟩

/-- The states a processor can be in through the public interface:
freshly constructed, or after some `set_file_metadata` call. -/
def reachableState (st : ProcState) : Prop :=
  st = initState ∨ ∃ st₀ f m, st = set_file_metadata st₀ f m

/-- Both metadata fields have been set. -/
def bothMetadataSet (st : ProcState) : Prop :=
  st.filepath ≠ none ∧ st.last_modified ≠ none

/-- Python truthiness of `self.filepath` in the guard
`if not self.filepath`: `None` and the empty string are falsy. -/
def filepathTruthy : Option String → Bool
  | none => false
  | some s => !s.isEmpty

/-- Row-building part of `JsonProcessor._create_dataframes`: the metadata
guard (`raise ValueError("Filepath not set in JsonProcessor")`), then for
every configured discriminator value present in the batch the concatenated
traversal rows of its documents; a table whose row list is empty is
skipped.  The DataFrame construction and per-column coercion consume these
rows and are modelled separately (`enforceTyped`). -/
def create_dataframes (st : ProcState) (config : List (String × Config))
    (split_messages : List (String × List Json)) :
    Except String (List (String × List Row)) :=
  if !filepathTruthy st.filepath then
    Except.error "Filepath not set in JsonProcessor"
  else
    Except.ok (config.filterMap (fun kc =>
      match (split_messages.find? (fun p => decide (p.1 = kc.1))).map Prod.snd with
      | none => none
      | some msgs =>
        let rows := msgs.flatMap (fun d => traverse d [] [] kc.2)
        if rows.isEmpty then none else some (kc.1, rows)))

/-! ### Size lemmas: every recursive call of `_traverse` descends into a
strictly smaller piece of the document -/

theorem jsize_pos (j : Json) : 1 ≤ jsize j := by
  cases j <;> simp [jsize]

theorem jsize_mem_list {x : Json} {xs : List Json} (h : x ∈ xs) :
    jsize x ≤ jsizeList xs := by
  induction xs with
  | nil => cases h
  | cons y ys ih =>
    rcases List.mem_cons.mp h with rfl | hmem
    · simp [jsizeList]; omega
    · have := ih hmem
      simp [jsizeList]; omega

theorem jsize_arr_mem {x : Json} {items : List Json} (h : x ∈ items) :
    jsize x < jsize (Json.arr items) := by
  have := jsize_mem_list h
  simp [jsize]; omega

theorem jLookup_jsize {entries : List (String × Json)} {k : String} {v : Json}
    (h : jLookup entries k = some v) : jsize v ≤ jsizeEntries entries := by
  induction entries with
  | nil => simp [jLookup] at h
  | cons e es ih =>
    rcases e with ⟨k', v'⟩
    by_cases hk : k' = k
    · simp [jLookup, List.find?, hk] at h
      subst h
      simp [jsizeEntries]; omega
    · simp [jLookup, List.find?, hk] at h
      have := ih (by simpa [jLookup] using h)
      simp [jsizeEntries]; omega

theorem jGet_jsize {data : Json} {k : String} {v : Json}
    (h : jGet data k = some v) : jsize v < jsize data := by
  cases data <;> simp [jGet] at h
  case obj entries =>
    have := jLookup_jsize h
    simp [jsize]; omega

theorem mem_branchInsert {bs : List (String × Json × Bool)} {k : String}
    {d : Json} {b : Bool} {x : String × Json × Bool}
    (hx : x ∈ branchInsert bs k d b) :
    (∃ y ∈ bs, x.2.1 = y.2.1) ∨ x.2.1 = d := by
  induction bs with
  | nil =>
    simp [branchInsert] at hx
    subst hx; right; rfl
  | cons y ys ih =>
    rcases y with ⟨k', d', b'⟩
    simp only [branchInsert] at hx
    by_cases hk : k' = k
    · rw [if_pos hk] at hx
      rcases List.mem_cons.mp hx with rfl | hmem
      · left; exact ⟨(k', d', b'), List.mem_cons_self _ _, rfl⟩
      · left; exact ⟨x, List.mem_cons_of_mem _ hmem, rfl⟩
    · rw [if_neg hk] at hx
      rcases List.mem_cons.mp hx with rfl | hmem
      · left; exact ⟨(k', d', b'), List.mem_cons_self _ _, rfl⟩
      · rcases ih hmem with ⟨y, hy, hxy⟩ | hxd
        · left; exact ⟨y, List.mem_cons_of_mem _ hy, hxy⟩
        · right; exact hxd

theorem mem_branchStepAux {data : Json} {fl : Bool}
    {bs : List (String × Json × Bool)} {suffixParts : List String}
    {z : String × Json × Bool} (hz : z ∈ branchStepAux data fl bs suffixParts) :
    (∃ y ∈ bs, z.2.1 = y.2.1) ∨ ∃ k, jGet data k = some z.2.1 := by
  match suffixParts with
  | [] => exact Or.inl ⟨z, hz, rfl⟩
  | [_] => exact Or.inl ⟨z, hz, rfl⟩
  | key :: s :: rest =>
    simp only [branchStepAux] at hz
    rcases hj : jGet data key with _ | sub <;> rw [hj] at hz
    · exact Or.inl ⟨z, hz, rfl⟩
    · rcases mem_branchInsert hz with ⟨w, hw, hzw⟩ | hzd
      · exact Or.inl ⟨w, hw, hzw⟩
      · exact Or.inr ⟨key, by rw [hzd]; exact hj⟩

theorem branchesOf_jGet {data : Json} {pp : List String} {cfg : Config}
    {x : String × Json × Bool} (hx : x ∈ branchesOf data pp cfg) :
    ∃ k, jGet data k = some x.2.1 := by
  unfold branchesOf at hx
  have h : ∀ (fields : List Field) (bs : List (String × Json × Bool)),
      (∀ y ∈ bs, ∃ k, jGet data k = some y.2.1) →
      ∀ y ∈ fields.foldl (branchStep data pp) bs, ∃ k, jGet data k = some y.2.1 := by
    intro fields
    induction fields with
    | nil => intro bs hbs y hy; exact hbs y hy
    | cons f fs ih =>
      intro bs hbs y hy
      simp only [List.foldl] at hy
      refine ih _ ?_ y hy
      intro z hz
      unfold branchStep at hz
      by_cases hpre : (extract_path f.source).1.take pp.length = pp
      · rw [if_pos hpre] at hz
        rcases mem_branchStepAux hz with ⟨w, hw, hzw⟩ | hk
        · rcases hbs w hw with ⟨k, hk⟩
          exact ⟨k, by rw [hzw]; exact hk⟩
        · exact hk
      · rw [if_neg hpre] at hz
        exact hbs z hz
  exact h cfg.fields [] (by simp) x hx

theorem branchesOf_jsize {data : Json} {pp : List String} {cfg : Config}
    {x : String × Json × Bool} (hx : x ∈ branchesOf data pp cfg) :
    jsize x.2.1 < jsize data := by
  rcases branchesOf_jGet hx with ⟨k, hk⟩
  exact jGet_jsize hk

theorem arrayPathsOf_jsize {data : Json} {pp : List String} {cfg : Config}
    {x : String × Json × Bool} (hx : x ∈ arrayPathsOf data pp cfg) :
    jsize x.2.1 < jsize data :=
  branchesOf_jsize (List.mem_of_mem_filter hx)

theorem dictPathsOf_jsize {data : Json} {pp : List String} {cfg : Config}
    {x : String × Json × Bool} (hx : x ∈ dictPathsOf data pp cfg) :
    jsize x.2.1 < jsize data :=
  branchesOf_jsize (List.mem_of_mem_filter hx)

/-! ### Fuel irrelevance: any fuel above the document size computes the
same result, so `traverse` is the function the Python recursion defines -/

theorem traverseF_irrel : ∀ (N : Nat) (data : Json), jsize data ≤ N →
    ∀ (f g : Nat) (pp : List String) (row : Row) (cfg : Config),
      jsize data < f → jsize data < g →
      traverseF f data pp row cfg = traverseF g data pp row cfg := by
  intro N
  induction N with
  | zero => intro data hd; have := jsize_pos data; omega
  | succ N ih =>
    intro data hd f g pp row cfg hf hg
    have hpos := jsize_pos data
    obtain ⟨f, rfl⟩ : ∃ f', f = f' + 1 := ⟨f - 1, by omega⟩
    obtain ⟨g, rfl⟩ : ∃ g', g = g' + 1 := ⟨g - 1, by omega⟩
    cases pp with
    | nil =>
      simp only [traverseF]
      refine congrArg (fun l : List (List Row) =>
        List.foldl prodCombine [[]]
          (List.map (fun p => if p.isEmpty then [([] : Row)] else p) l)) ?_
      refine List.map_congr_left fun key _ => ?_
      rcases hj : jGet data key with _ | v
      · rfl
      · have hv := jGet_jsize hj
        cases v with
        | arr items =>
          by_cases ha : isArrayKey cfg key
          · simp only [ha, if_true]
            refine List.flatMap_congr fun it hit => ?_
            have hits := jsize_arr_mem hit
            exact ih it (by omega) f g [key] [] cfg (by omega) (by omega)
          · simp only [ha, if_false]
            exact ih (Json.arr items) (by omega) f g [key] [] cfg (by omega) (by omega)
        | null => exact ih Json.null (by omega) f g [key] [] cfg (by omega) (by omega)
        | bool b => exact ih (Json.bool b) (by omega) f g [key] [] cfg (by omega) (by omega)
        | num q => exact ih (Json.num q) (by omega) f g [key] [] cfg (by omega) (by omega)
        | str s => exact ih (Json.str s) (by omega) f g [key] [] cfg (by omega) (by omega)
        | obj entries => exact ih (Json.obj entries) (by omega) f g [key] [] cfg (by omega) (by omega)
    | cons k0 pp0 =>
      simp only [traverseF]
      have hdict : (dictPathsOf data (k0 :: pp0) cfg).map
            (fun b => traverseF f b.2.1 (k0 :: pp0 ++ [b.1]) [] cfg)
          = (dictPathsOf data (k0 :: pp0) cfg).map
            (fun b => traverseF g b.2.1 (k0 :: pp0 ++ [b.1]) [] cfg) := by
        refine List.map_congr_left fun b hb => ?_
        have := dictPathsOf_jsize hb
        exact ih b.2.1 (by omega) f g _ [] cfg (by omega) (by omega)
      have harr : (arrayPathsOf data (k0 :: pp0) cfg).map (fun b =>
            match b.2.1 with
            | Json.arr items =>
              (items.flatMap (fun it => traverseF f it (k0 :: pp0 ++ [b.1]) [] cfg),
                items.isEmpty)
            | _ => (([] : List Row), false))
          = (arrayPathsOf data (k0 :: pp0) cfg).map (fun b =>
            match b.2.1 with
            | Json.arr items =>
              (items.flatMap (fun it => traverseF g it (k0 :: pp0 ++ [b.1]) [] cfg),
                items.isEmpty)
            | _ => (([] : List Row), false)) := by
        refine List.map_congr_left fun b hb => ?_
        have hbs := arrayPathsOf_jsize hb
        rcases hb21 : b.2.1 with _ | _ | _ | _ | items | entries <;> simp only
        rw [hb21] at hbs
        refine congrArg (fun l => (l, items.isEmpty)) ?_
        refine List.flatMap_congr fun it hit => ?_
        have hits := jsize_arr_mem hit
        exact ih it (by omega) f g _ [] cfg (by omega) (by omega)
      rw [hdict, harr]

/-- Any sufficient fuel computes `traverse`. -/
theorem traverseF_eq_traverse {f : Nat} {data : Json} {pp : List String}
    {row : Row} {cfg : Config} (hf : jsize data < f) :
    traverseF f data pp row cfg = traverse data pp row cfg :=
  traverseF_irrel (jsize data) data le_rfl f (jsize data + 1) pp row cfg hf (by omega)

/-! ### Characterizations of `traverse` in terms of itself (fuel removed) -/

/-- The top-level case of `_traverse`: per-key partial results, placeholder
substitution for empty ones, then the cartesian combination. -/
theorem traverse_nil (data : Json) (row : Row) (cfg : Config) :
    traverse data [] row cfg =
      (((topLevelKeys cfg).map (fun key => branchResult data key cfg)).map
        (fun p => if p.isEmpty then [([] : Row)] else p)).foldl prodCombine [[]] := by
  unfold traverse
  simp only [traverseF]
  refine congrArg (fun l : List (List Row) =>
    List.foldl prodCombine [[]]
      (List.map (fun p => if p.isEmpty then [([] : Row)] else p) l)) ?_
  refine List.map_congr_left fun key _ => ?_
  unfold branchResult
  rcases hj : jGet data key with _ | v
  · rfl
  · have hv := jGet_jsize hj
    cases v with
    | arr items =>
      by_cases ha : isArrayKey cfg key
      · simp only [ha, if_true]
        refine List.flatMap_congr fun it hit => ?_
        have := jsize_arr_mem hit
        exact traverseF_eq_traverse (by omega)
      · simp only [ha, if_false]
        exact traverseF_eq_traverse (by omega)
    | null => exact traverseF_eq_traverse (by omega)
    | bool b => exact traverseF_eq_traverse (by omega)
    | num q => exact traverseF_eq_traverse (by omega)
    | str s => exact traverseF_eq_traverse (by omega)
    | obj entries => exact traverseF_eq_traverse (by omega)

/-- The recursive case of `_traverse`: leaf extraction, branch recursion
with the empty-array kill, then the cartesian combination. -/
theorem traverse_cons (data : Json) (k0 : String) (pp0 : List String) (row : Row)
    (cfg : Config) :
    traverse data (k0 :: pp0) row cfg =
      match arrKill ((arrayPathsOf data (k0 :: pp0) cfg).map (fun b =>
          match b.2.1 with
          | Json.arr items =>
            (items.flatMap (fun it => traverse it (k0 :: pp0 ++ [b.1]) [] cfg),
              items.isEmpty)
          | _ => (([] : List Row), false))) with
      | none => []
      | some arrResults =>
        if !((((dictPathsOf data (k0 :: pp0) cfg).map
              (fun b => traverse b.2.1 (k0 :: pp0 ++ [b.1]) [] cfg)).filter
              (fun l => !l.isEmpty)) ++ arrResults).isEmpty then
          ((((dictPathsOf data (k0 :: pp0) cfg).map
              (fun b => traverse b.2.1 (k0 :: pp0 ++ [b.1]) [] cfg)).filter
              (fun l => !l.isEmpty)) ++ arrResults).foldl prodCombine
            [leafRow data (k0 :: pp0) row cfg]
        else if !(leafRow data (k0 :: pp0) row cfg).isEmpty then
          [leafRow data (k0 :: pp0) row cfg]
        else [] := by
  have hstep : traverse data (k0 :: pp0) row cfg
      = traverseF (jsize data + 1) data (k0 :: pp0) row cfg := rfl
  rw [hstep]
  simp only [traverseF]
  have hdict : (dictPathsOf data (k0 :: pp0) cfg).map
        (fun b => traverseF (jsize data) b.2.1 (k0 :: pp0 ++ [b.1]) [] cfg)
      = (dictPathsOf data (k0 :: pp0) cfg).map
        (fun b => traverse b.2.1 (k0 :: pp0 ++ [b.1]) [] cfg) := by
    refine List.map_congr_left fun b hb => ?_
    have := dictPathsOf_jsize hb
    exact traverseF_eq_traverse (by omega)
  have harr : (arrayPathsOf data (k0 :: pp0) cfg).map (fun b =>
        match b.2.1 with
        | Json.arr items =>
          (items.flatMap (fun it => traverseF (jsize data) it (k0 :: pp0 ++ [b.1]) [] cfg),
            items.isEmpty)
        | _ => (([] : List Row), false))
      = (arrayPathsOf data (k0 :: pp0) cfg).map (fun b =>
        match b.2.1 with
        | Json.arr items =>
          (items.flatMap (fun it => traverse it (k0 :: pp0 ++ [b.1]) [] cfg),
            items.isEmpty)
        | _ => (([] : List Row), false)) := by
    refine List.map_congr_left fun b hb => ?_
    have hbs := arrayPathsOf_jsize hb
    rcases hb21 : b.2.1 with _ | _ | _ | _ | items | entries <;> simp only
    rw [hb21] at hbs
    refine congrArg (fun l => (l, items.isEmpty)) ?_
    refine List.flatMap_congr fun it hit => ?_
    have := jsize_arr_mem hit
    exact traverseF_eq_traverse (by omega)
  rw [hdict, harr]

/-! ### Row and cartesian-product lemmas -/

theorem rowKeys_rowInsert_sub {r : Row} {kv : String × Json} {a : String}
    (ha : a ∈ rowKeys (rowInsert r kv)) : a = kv.1 ∨ a ∈ rowKeys r := by
  induction r with
  | nil =>
    rcases kv with ⟨k, v⟩
    simp [rowInsert, rowKeys] at ha
    exact Or.inl ha
  | cons e r ih =>
    rcases kv with ⟨k, v⟩
    rcases e with ⟨k', v'⟩
    simp only [rowInsert] at ha
    by_cases hk : k' = k
    · rw [if_pos hk] at ha
      simp [rowKeys] at ha ⊢
      rcases ha with rfl | ha
      · exact Or.inr (Or.inl rfl)
      · exact Or.inr (Or.inr ha)
    · rw [if_neg hk] at ha
      simp [rowKeys] at ha ⊢
      rcases ha with rfl | ha
      · exact Or.inr (Or.inl rfl)
      · rcases ih (by simpa [rowKeys] using ha) with h | h
        · exact Or.inl h
        · exact Or.inr (Or.inr (by simpa [rowKeys] using h))

theorem rowKeys_mergeRow_sub {base extra : Row} {a : String}
    (ha : a ∈ rowKeys (mergeRow base extra)) :
    a ∈ rowKeys base ∨ a ∈ rowKeys extra := by
  induction extra generalizing base with
  | nil => exact Or.inl ha
  | cons kv e ih =>
    have ha' : a ∈ rowKeys (mergeRow (rowInsert base kv) e) := ha
    rcases ih ha' with h | h
    · rcases rowKeys_rowInsert_sub h with rfl | h
      · exact Or.inr (by simp [rowKeys])
      · exact Or.inl h
    · exact Or.inr (by simp [rowKeys]; exact Or.inr (by simpa [rowKeys] using h))

theorem mem_prodCombine {rows news : List Row} {r : Row} :
    r ∈ prodCombine rows news ↔ ∃ r0 ∈ rows, ∃ p ∈ news, r = mergeRow r0 p := by
  simp only [prodCombine, List.mem_flatMap, List.mem_map]
  constructor
  · rintro ⟨r0, hr0, p, hp, rfl⟩
    exact ⟨r0, hr0, p, hp, rfl⟩
  · rintro ⟨r0, hr0, p, hp, rfl⟩
    exact ⟨r0, hr0, p, hp, rfl⟩

theorem keys_foldl_prodCombine {factors : List (List Row)} {init : List Row}
    {r : Row} {a : String}
    (hr : r ∈ factors.foldl prodCombine init) (ha : a ∈ rowKeys r) :
    (∃ r0 ∈ init, a ∈ rowKeys r0) ∨ ∃ l ∈ factors, ∃ rr ∈ l, a ∈ rowKeys rr := by
  induction factors generalizing init with
  | nil => exact Or.inl ⟨r, hr, ha⟩
  | cons l ls ih =>
    rcases ih hr with ⟨r0, hr0, ha0⟩ | ⟨l', hl', rr, hrr, harr⟩
    · rcases mem_prodCombine.mp hr0 with ⟨r1, hr1, p, hp, rfl⟩
      rcases rowKeys_mergeRow_sub ha0 with h | h
      · exact Or.inl ⟨r1, hr1, h⟩
      · exact Or.inr ⟨l, List.mem_cons_self _ _, p, hp, h⟩
    · exact Or.inr ⟨l', List.mem_cons_of_mem _ hl', rr, hrr, harr⟩

theorem rowLookup_rowInsert_self (r : Row) (k : String) (v : Json) :
    rowLookup (rowInsert r (k, v)) k = some v := by
  induction r with
  | nil => simp [rowInsert, rowLookup, List.find?]
  | cons e r ih =>
    rcases e with ⟨k', v'⟩
    simp only [rowInsert]
    by_cases hk : k' = k
    · subst hk
      simp [rowLookup, List.find?]
    · rw [if_neg hk]
      simpa [rowLookup, List.find?, hk] using ih

theorem rowLookup_rowInsert_ne {r : Row} {k a : String} {v : Json} (h : a ≠ k) :
    rowLookup (rowInsert r (k, v)) a = rowLookup r a := by
  induction r with
  | nil => simp [rowInsert, rowLookup, List.find?, Ne.symm h]
  | cons e r ih =>
    rcases e with ⟨k', v'⟩
    simp only [rowInsert]
    by_cases hk : k' = k
    · subst hk
      simp [rowLookup, List.find?, Ne.symm h]
    · rw [if_neg hk]
      by_cases hk' : k' = a
      · simp [rowLookup, List.find?, hk']
      · simpa [rowLookup, List.find?, hk'] using ih

theorem rowLookup_mergeRow_of_not_mem {base extra : Row} {a : String}
    (h : a ∉ rowKeys extra) :
    rowLookup (mergeRow base extra) a = rowLookup base a := by
  induction extra generalizing base with
  | nil => rfl
  | cons kv e ih =>
    rcases kv with ⟨k, v⟩
    have hk : a ≠ k := by
      intro hak; exact h (by simp [rowKeys, hak])
    have he : a ∉ rowKeys e := by
      intro hae; exact h (by simp [rowKeys] at hae ⊢; exact Or.inr hae)
    have : mergeRow base ((k, v) :: e) = mergeRow (rowInsert base (k, v)) e := rfl
    rw [this, ih he, rowLookup_rowInsert_ne hk]

theorem lookup_foldl_prodCombine {factors : List (List Row)} {init : List Row}
    {a : String} {v : Json}
    (hinit : ∀ r ∈ init, rowLookup r a = some v)
    (hfac : ∀ l ∈ factors, ∀ rr ∈ l, a ∉ rowKeys rr) :
    ∀ r ∈ factors.foldl prodCombine init, rowLookup r a = some v := by
  induction factors generalizing init with
  | nil => exact hinit
  | cons l ls ih =>
    intro r hr
    refine ih ?_ (fun l' hl' => hfac l' (List.mem_cons_of_mem _ hl')) r hr
    intro r0 hr0
    rcases mem_prodCombine.mp hr0 with ⟨r1, hr1, p, hp, rfl⟩
    rw [rowLookup_mergeRow_of_not_mem (hfac l (List.mem_cons_self _ _) p hp)]
    exact hinit r1 hr1

theorem length_prodCombine (rows news : List Row) :
    (prodCombine rows news).length = rows.length * news.length := by
  induction rows with
  | nil => simp [prodCombine]
  | cons r rs ih =>
    simp only [prodCombine, List.flatMap_cons, List.length_append, List.length_map,
      List.length_cons] at ih ⊢
    rw [ih]
    ring

theorem length_foldl_prodCombine (factors : List (List Row)) (init : List Row) :
    (factors.foldl prodCombine init).length =
      init.length * (factors.map List.length).prod := by
  induction factors generalizing init with
  | nil => simp
  | cons l ls ih =>
    simp only [List.foldl, List.map, List.prod_cons]
    rw [ih, length_prodCombine]
    ring

/-! ### `arrKill` lemmas -/

theorem arrKill_none_of_mem {l : List (List Row × Bool)}
    (h : ∃ x ∈ l, x.1 = [] ∧ x.2 = true) : arrKill l = none := by
  induction l with
  | nil => rcases h with ⟨x, hx, _⟩; cases hx
  | cons p rest ih =>
    rcases p with ⟨sub, isEmp⟩
    rcases h with ⟨x, hx, hx1, hx2⟩
    rcases List.mem_cons.mp hx with rfl | hmem
    · simp only at hx1 hx2
      subst hx1; subst hx2
      simp [arrKill]
    · simp only [arrKill]
      by_cases hs : sub.isEmpty
      · rw [if_pos hs]
        by_cases he : isEmp
        · rw [if_pos he]
        · rw [if_neg he]
          exact ih ⟨x, hmem, hx1, hx2⟩
      · rw [if_neg hs]
        rw [ih ⟨x, hmem, hx1, hx2⟩]
        rfl

theorem arrKill_some_mem {l : List (List Row × Bool)} {ls : List (List Row)}
    (h : arrKill l = some ls) : ∀ s ∈ ls, ∃ p ∈ l, s = p.1 := by
  induction l generalizing ls with
  | nil =>
    simp [arrKill] at h
    subst h
    intro s hs; cases hs
  | cons p rest ih =>
    rcases p with ⟨sub, isEmp⟩
    simp only [arrKill] at h
    by_cases hs : sub.isEmpty
    · rw [if_pos hs] at h
      by_cases he : isEmp
      · rw [if_pos he] at h; cases h
      · rw [if_neg he] at h
        intro s hsmem
        rcases ih h s hsmem with ⟨q, hq, hsq⟩
        exact ⟨q, List.mem_cons_of_mem _ hq, hsq⟩
    · rw [if_neg hs] at h
      rcases hrest : arrKill rest with _ | ls'
      · rw [hrest] at h; cases h
      · rw [hrest] at h
        rw [Option.map_some'] at h
        injection h with h
        subst h
        intro s hsmem
        rcases List.mem_cons.mp hsmem with rfl | hmem
        · exact ⟨(s, isEmp), List.mem_cons_self _ _, rfl⟩
        · rcases ih hrest s hmem with ⟨q, hq, hsq⟩
          exact ⟨q, List.mem_cons_of_mem _ hq, hsq⟩

/-! ### Where aliases in traversal rows come from -/

theorem rowKeys_leafStep {data : Json} {pp : List String} {r : Row} {f : Field}
    {a : String} (ha : a ∈ rowKeys (leafStep data pp r f)) :
    a ∈ rowKeys r ∨ (a = f.aliasName ∧
      (extract_path f.source).1.take pp.length = pp ∧
      ∃ lk, (extract_path f.source).1.drop pp.length = [lk]) := by
  unfold leafStep at ha
  by_cases hpre : (extract_path f.source).1.take pp.length = pp
  · rw [if_pos hpre] at ha
    rcases hdrop : (extract_path f.source).1.drop pp.length with _ | ⟨lk, rest⟩
    · rw [hdrop] at ha
      exact Or.inl (by simpa [leafStepAux] using ha)
    · cases rest with
      | nil =>
        rw [hdrop] at ha
        simp only [leafStepAux] at ha
        rcases hj : jGet data lk with _ | v <;> rw [hj] at ha
        · exact Or.inl ha
        · rcases rowKeys_rowInsert_sub ha with h | h
          · exact Or.inr ⟨h, hpre, lk, rfl⟩
          · exact Or.inl h
      | cons l2 rest2 =>
        rw [hdrop] at ha
        exact Or.inl (by simpa [leafStepAux] using ha)
  · rw [if_neg hpre] at ha
    exact Or.inl ha

theorem rowKeys_leafRow {data : Json} {pp : List String} {row : Row} {cfg : Config}
    {a : String} (ha : a ∈ rowKeys (leafRow data pp row cfg)) :
    a ∈ rowKeys row ∨ ∃ f ∈ cfg.fields, f.aliasName = a ∧
      (extract_path f.source).1.take pp.length = pp ∧
      pp.length < (extract_path f.source).1.length := by
  unfold leafRow at ha
  have h : ∀ (fields : List Field) (r0 : Row),
      a ∈ rowKeys (fields.foldl (leafStep data pp) r0) →
      a ∈ rowKeys r0 ∨ ∃ f ∈ fields, f.aliasName = a ∧
        (extract_path f.source).1.take pp.length = pp ∧
        pp.length < (extract_path f.source).1.length := by
    intro fields
    induction fields with
    | nil => intro r0 h0; exact Or.inl h0
    | cons f fs ih =>
      intro r0 h0
      rcases ih _ h0 with h1 | ⟨g, hg, hga, htake, hlen⟩
      · rcases rowKeys_leafStep h1 with h2 | ⟨rfl, htake, lk, hdrop⟩
        · exact Or.inl h2
        · right
          refine ⟨f, List.mem_cons_self _ _, rfl, htake, ?_⟩
          have hld := congrArg List.length hdrop
          simp [List.length_drop] at hld
          omega
      · exact Or.inr ⟨g, List.mem_cons_of_mem _ hg, hga, htake, hlen⟩
  exact h cfg.fields row ha

/-- From a prefix match one level deeper, recover the prefix match at the
current level. -/
theorem take_of_take_append {path pp : List String} {k : String}
    (h : path.take (pp.length + 1) = pp ++ [k]) :
    path.take pp.length = pp := by
  have h1 : path.take pp.length = (path.take (pp.length + 1)).take pp.length := by
    rw [List.take_take]
    congr 1
    omega
  rw [h1, h]
  exact List.take_left pp [k]

/-- Rows of the per-key partial result of the top-level case all come from
a recursive call at path `[key]` on some piece of the document. -/
theorem mem_branch_elim {fuel : Nat} {data : Json} {key : String} {cfg : Config}
    {rr : Row}
    (hrr : rr ∈ (match jGet data key with
      | some (Json.arr items) =>
        if isArrayKey cfg key then
          items.flatMap (fun it => traverseF fuel it [key] [] cfg)
        else traverseF fuel (Json.arr items) [key] [] cfg
      | some keyData => traverseF fuel keyData [key] [] cfg
      | none => ([] : List Row))) :
    ∃ d, rr ∈ traverseF fuel d [key] [] cfg := by
  rcases hj : jGet data key with _ | v
  · rw [hj] at hrr
    simp at hrr
  · rw [hj] at hrr
    cases v with
    | arr items =>
      by_cases harrk : isArrayKey cfg key
      · simp only [harrk, if_true] at hrr
        rcases List.mem_flatMap.mp hrr with ⟨it, _, hit⟩
        exact ⟨it, hit⟩
      · simp [harrk] at hrr
        exact ⟨Json.arr items, hrr⟩
    | null => exact ⟨Json.null, hrr⟩
    | bool b => exact ⟨Json.bool b, hrr⟩
    | num q => exact ⟨Json.num q, hrr⟩
    | str s => exact ⟨Json.str s, hrr⟩
    | obj entries => exact ⟨Json.obj entries, hrr⟩

/-- Every alias present in a traversal row either came in through the
accumulating row or is the alias of a configured field whose parsed path
extends the current path prefix. -/
theorem traverseF_keys : ∀ (fuel : Nat) (data : Json) (pp : List String) (row : Row)
    (cfg : Config) (r : Row) (a : String),
    r ∈ traverseF fuel data pp row cfg → a ∈ rowKeys r →
    a ∈ rowKeys row ∨ ∃ f ∈ cfg.fields, f.aliasName = a ∧
      (extract_path f.source).1.take pp.length = pp ∧
      pp.length < (extract_path f.source).1.length := by
  intro fuel
  induction fuel with
  | zero =>
    intro data pp row cfg r a hr _
    simp [traverseF] at hr
  | succ fuel ih =>
    intro data pp row cfg r a hr ha
    cases pp with
    | nil =>
      simp only [traverseF] at hr
      rcases keys_foldl_prodCombine hr ha with ⟨r0, hr0, ha0⟩ | ⟨l, hl, rr, hrr, harr⟩
      · simp only [List.mem_singleton] at hr0
        subst hr0
        simp [rowKeys] at ha0
      · rcases List.mem_map.mp hl with ⟨p, hp, rfl⟩
        rcases List.mem_map.mp hp with ⟨key, hkey, rfl⟩
        by_cases hemp : ((match jGet data key with
            | some (Json.arr items) =>
              if isArrayKey cfg key then
                items.flatMap (fun it => traverseF fuel it [key] [] cfg)
              else traverseF fuel (Json.arr items) [key] [] cfg
            | some keyData => traverseF fuel keyData [key] [] cfg
            | none => ([] : List Row)).isEmpty : Bool) = true
        · rw [if_pos hemp] at hrr
          simp only [List.mem_singleton] at hrr
          subst hrr
          simp [rowKeys] at harr
        · rw [if_neg hemp] at hrr
          rcases mem_branch_elim hrr with ⟨d, hd⟩
          rcases ih d [key] [] cfg rr a hd harr with h0 | ⟨f, hf, hfa, _, hlen⟩
          · simp [rowKeys] at h0
          · refine Or.inr ⟨f, hf, hfa, by simp, ?_⟩
            simp only [List.length_cons, List.length_nil] at hlen ⊢
            omega
    | cons k0 pp0 =>
      simp only [traverseF] at hr
      rcases hkill : arrKill ((arrayPathsOf data (k0 :: pp0) cfg).map (fun b =>
          match b.2.1 with
          | Json.arr items =>
            (items.flatMap (fun it => traverseF fuel it (k0 :: pp0 ++ [b.1]) [] cfg),
              items.isEmpty)
          | _ => (([] : List Row), false))) with _ | arrResults
      · rw [hkill] at hr
        simp at hr
      · rw [hkill] at hr
        have hr2 : r ∈ (if (!((((dictPathsOf data (k0 :: pp0) cfg).map
              (fun b => traverseF fuel b.2.1 (k0 :: pp0 ++ [b.1]) [] cfg)).filter
              (fun l => !l.isEmpty)) ++ arrResults).isEmpty) = true then
            ((((dictPathsOf data (k0 :: pp0) cfg).map
              (fun b => traverseF fuel b.2.1 (k0 :: pp0 ++ [b.1]) [] cfg)).filter
              (fun l => !l.isEmpty)) ++ arrResults).foldl prodCombine
              [leafRow data (k0 :: pp0) row cfg]
          else if (!(leafRow data (k0 :: pp0) row cfg).isEmpty) = true then
            [leafRow data (k0 :: pp0) row cfg]
          else []) := hr
        clear hr
        cases hne : ((((dictPathsOf data (k0 :: pp0) cfg).map
            (fun b => traverseF fuel b.2.1 (k0 :: pp0 ++ [b.1]) [] cfg)).filter
            (fun l => !l.isEmpty)) ++ arrResults).isEmpty with
        | true =>
          rw [hne] at hr2
          rw [if_neg (by simp)] at hr2
          cases hcr : (leafRow data (k0 :: pp0) row cfg).isEmpty with
          | true =>
            rw [hcr] at hr2
            simp at hr2
          | false =>
            rw [hcr] at hr2
            rw [if_pos (by simp)] at hr2
            simp only [List.mem_singleton] at hr2
            subst hr2
            rcases rowKeys_leafRow ha with h | h
            · exact Or.inl h
            · exact Or.inr h
        | false =>
          rw [hne] at hr2
          rw [if_pos (by simp)] at hr2
          rcases keys_foldl_prodCombine hr2 ha with ⟨r0, hr0, ha0⟩ | ⟨l, hl, rr, hrr, harr⟩
          · simp only [List.mem_singleton] at hr0
            subst hr0
            rcases rowKeys_leafRow ha0 with h | h
            · exact Or.inl h
            · exact Or.inr h
          · have hdeep : ∃ k1 d, rr ∈ traverseF fuel d (k0 :: pp0 ++ [k1]) [] cfg := by
              rcases List.mem_append.mp hl with hld | hla
              · rcases List.mem_map.mp (List.mem_of_mem_filter hld) with ⟨b, _, rfl⟩
                exact ⟨b.1, b.2.1, hrr⟩
              · rcases arrKill_some_mem hkill l hla with ⟨p, hp, rfl⟩
                rcases List.mem_map.mp hp with ⟨b, _, rfl⟩
                rcases hb21 : b.2.1 with _ | _ | _ | _ | items | entries <;>
                  rw [hb21] at hrr <;> simp only at hrr
                · cases hrr
                · cases hrr
                · cases hrr
                · cases hrr
                · rcases List.mem_flatMap.mp hrr with ⟨it, _, hit⟩
                  exact ⟨b.1, it, hit⟩
                · cases hrr
            rcases hdeep with ⟨k1, d, hd⟩
            rcases ih d (k0 :: pp0 ++ [k1]) [] cfg rr a hd harr with h0 | ⟨f, hf, hfa, htake, hlen⟩
            · simp [rowKeys] at h0
            · refine Or.inr ⟨f, hf, hfa, ?_, ?_⟩
              · have : (k0 :: pp0 ++ [k1]) = (k0 :: pp0) ++ [k1] := rfl
                rw [this] at htake
                have hlen1 : (k0 :: pp0 ++ [k1]).length = (k0 :: pp0).length + 1 := by
                  simp
                exact take_of_take_append (by rw [← hlen1]; exact htake)
              · simp only [List.length_append, List.length_cons] at hlen ⊢
                omega

/-- The alias-origin property for the fuel-free wrapper. -/
theorem traverse_keys {data : Json} {pp : List String} {row : Row} {cfg : Config}
    {r : Row} {a : String}
    (hr : r ∈ traverse data pp row cfg) (ha : a ∈ rowKeys r) :
    a ∈ rowKeys row ∨ ∃ f ∈ cfg.fields, f.aliasName = a ∧
      (extract_path f.source).1.take pp.length = pp ∧
      pp.length < (extract_path f.source).1.length :=
  traverseF_keys (jsize data + 1) data pp row cfg r a hr ha

/-! ### Concrete scenarios from the spec's §8 test properties -/

/-- Sibling-prefix configuration with the deeper field listed first
(the order the repository's regression test calls the bad order). -/
def cfgDeepFirst : Config := ⟨[⟨"header.action", "action"⟩,
  ⟨"body.path.to.deep.value", "deep_value"⟩, ⟨"body.path.to.shallow", "shallow_value"⟩]⟩

/-- Sibling-prefix configuration with the shallow field listed first. -/
def cfgShallowFirst : Config := ⟨[⟨"header.action", "action"⟩,
  ⟨"body.path.to.shallow", "shallow_value"⟩, ⟨"body.path.to.deep.value", "deep_value"⟩]⟩

/-- A document carrying both a shallow leaf and a deeper sibling under the
shared prefix `body.path.to`. -/
def docSibling : Json :=
  Json.obj [("header", Json.obj [("action", Json.str "DeepFirst")]),
            ("body", Json.obj [("path", Json.obj [("to", Json.obj
              [("shallow", Json.str "SHALLOW"),
               ("deep", Json.obj [("value", Json.str "DEEP")])])])])]

/-- The nested-array configuration `orders[].orderId` / `orders[].items[].sku`. -/
def cfgOrders : Config := ⟨[⟨"orders[].orderId", "order_id"⟩,
  ⟨"orders[].items[].sku", "sku"⟩]⟩

/-- Order `X` has an empty `items` array (its branch is killed); sibling
order `Y` has one item. -/
def docOrders : Json :=
  Json.obj [("orders", Json.arr
    [Json.obj [("orderId", Json.str "X"), ("items", Json.arr [])],
     Json.obj [("orderId", Json.str "Y"),
       ("items", Json.arr [Json.obj [("sku", Json.str "S1")]])]])]

/-! ### Further helper lemmas for the claims -/

theorem splitOnChar_ne_nil (c : Char) (cs : List Char) : splitOnChar c cs ≠ [] := by
  cases cs with
  | nil => simp [splitOnChar]
  | cons x rest =>
    simp only [splitOnChar]
    rcases h : splitOnChar c rest with _ | ⟨g, gs⟩
    · simp
    · by_cases hx : x = c <;> simp [hx]

/-- The first parsed segment of a source is its head key. -/
theorem extract_path_take_one (s : String) :
    (extract_path s).1.take 1 = [headKey s] := by
  unfold extract_path headKey
  rcases h : splitOnChar '.' s.data with _ | ⟨p, rest⟩
  · exact absurd h (splitOnChar_ne_nil _ _)
  · simp

theorem jLookup_filter_self (entries : List (String × Json)) (k : String) :
    jLookup (entries.filter (fun p => decide (p.1 ≠ k))) k = none := by
  induction entries with
  | nil => rfl
  | cons e rest ih =>
    rcases e with ⟨k1, v1⟩
    by_cases h1 : k1 = k
    · simpa [List.filter, h1] using ih
    · simp [List.filter, jLookup, List.find?, h1, ih]

theorem jLookup_filter_ne {entries : List (String × Json)} {k k' : String}
    (hne : k' ≠ k) :
    jLookup (entries.filter (fun p => decide (p.1 ≠ k))) k' = jLookup entries k' := by
  induction entries with
  | nil => rfl
  | cons e rest ih =>
    rcases e with ⟨k1, v1⟩
    by_cases h1 : k1 = k
    · subst h1
      simpa [List.filter, jLookup, List.find?, Ne.symm hne] using ih
    · by_cases h2 : k1 = k'
      · simp [List.filter, jLookup, List.find?, h1, h2, hne]
      · simpa [List.filter, jLookup, List.find?, h1, h2] using ih

/-- Rows of a per-key partial result all come from a recursive call at
path `[key]` on some piece of the document. -/
theorem mem_branchResult_elim {data : Json} {key : String} {cfg : Config} {rr : Row}
    (hrr : rr ∈ branchResult data key cfg) :
    ∃ d, rr ∈ traverse d [key] [] cfg := by
  unfold branchResult at hrr
  rcases hj : jGet data key with _ | v
  · rw [hj] at hrr
    simp at hrr
  · rw [hj] at hrr
    cases v with
    | arr items =>
      by_cases harrk : isArrayKey cfg key
      · simp only [harrk, if_true] at hrr
        rcases List.mem_flatMap.mp hrr with ⟨it, _, hit⟩
        exact ⟨it, hit⟩
      · simp [harrk] at hrr
        exact ⟨Json.arr items, hrr⟩
    | null => exact ⟨Json.null, hrr⟩
    | bool b => exact ⟨Json.bool b, hrr⟩
    | num q => exact ⟨Json.num q, hrr⟩
    | str s => exact ⟨Json.str s, hrr⟩
    | obj os => exact ⟨Json.obj os, hrr⟩

/-! ### Claims -/

/-- C10: the root-level traversal call returns at least one row for every
document and configuration — every per-key partial result set is replaced
by a placeholder row when empty before the cartesian combination — and
consequently a batch of documents routed to a table contributes at least
one row per document. -/
theorem claim_c10 :
    (∀ (data : Json) (cfg : Config), 1 ≤ (traverse data [] [] cfg).length)
    ∧ (∀ (msgs : List Json) (cfg : Config),
        msgs.length ≤ (msgs.flatMap (fun d => traverse d [] [] cfg)).length) := by
  have h1 : ∀ (data : Json) (cfg : Config), 1 ≤ (traverse data [] [] cfg).length := by
    intro data cfg
    rw [traverse_nil, length_foldl_prodCombine]
    have hpos : 0 < ((((topLevelKeys cfg).map (fun key => branchResult data key cfg)).map
        (fun p => if p.isEmpty then [([] : Row)] else p)).map List.length).prod := by
      apply List.prod_pos
      intro n hn
      rcases List.mem_map.mp hn with ⟨l, hl, rfl⟩
      rcases List.mem_map.mp hl with ⟨p, hp, rfl⟩
      by_cases hemp : p.isEmpty = true
      · rw [if_pos hemp]; simp
      · rw [if_neg hemp]
        rcases p with _ | ⟨r, p⟩
        · simp at hemp
        · simp
    have hone : ([([] : Row)] : List Row).length = 1 := rfl
    rw [hone, one_mul]
    exact hpos
  refine ⟨h1, ?_⟩
  intro msgs cfg
  induction msgs with
  | nil => simp
  | cons d ds ih =>
    simp only [List.flatMap_cons, List.length_append, List.length_cons]
    have := h1 d cfg
    omega

/-- C3: in a recursive (non-root) traversal call, an array-explosion
branch holding an empty array makes the whole call yield zero rows (no
placeholder below the root); and in the `orders` scenario the order with
empty `items` contributes no rows while its sibling with one item
contributes its own row. -/
theorem claim_c3 :
    (∀ (data : Json) (k0 : String) (pp0 : List String) (row : Row) (cfg : Config),
      (∃ b ∈ arrayPathsOf data (k0 :: pp0) cfg, b.2.1 = Json.arr []) →
      traverse data (k0 :: pp0) row cfg = [])
    ∧ traverse docOrders [] [] cfgOrders =
        [[("order_id", Json.str "Y"), ("sku", Json.str "S1")]] := by
  constructor
  · rintro data k0 pp0 row cfg ⟨b, hb, hb21⟩
    rw [traverse_cons]
    have hnone : arrKill ((arrayPathsOf data (k0 :: pp0) cfg).map (fun b =>
        match b.2.1 with
        | Json.arr items =>
          (items.flatMap (fun it => traverse it (k0 :: pp0 ++ [b.1]) [] cfg),
            items.isEmpty)
        | _ => (([] : List Row), false))) = none := by
      apply arrKill_none_of_mem
      refine ⟨_, List.mem_map_of_mem _ hb, ?_⟩
      rw [hb21]
      exact ⟨rfl, rfl⟩
    rw [hnone]
  · rfl

/-- Witness for C3: a concrete recursive call with an empty array branch
(`items: []` below `orders`) yields zero rows. -/
theorem claim_c3_witness :
    traverse (Json.obj [("items", Json.arr [])]) ["orders"] [] cfgOrders = [] :=
  claim_c3.1 (Json.obj [("items", Json.arr [])]) "orders" [] [] cfgOrders
    ⟨("items", Json.arr [], true), List.Mem.head _, rfl⟩

/-- C2: when the only top-level array-explosion key holds an empty array
and every other top-level branch yields at most one row (no other arrays
anywhere), the document produces exactly one row; aliases of fields
sourced under that key are absent from the row; and the sibling top-level
branches are unaffected — the result equals the traversal of the document
with that key removed. -/
theorem claim_c2 (entries : List (String × Json)) (cfg : Config) (k : String)
    (hk : jGet (Json.obj entries) k = some (Json.arr []))
    (harr : isArrayKey cfg k = true)
    (hother : ∀ k' ∈ topLevelKeys cfg, k' ≠ k →
      (branchResult (Json.obj entries) k' cfg).length ≤ 1) :
    (traverse (Json.obj entries) [] [] cfg).length = 1
    ∧ ((cfg.fields.map Field.aliasName).Nodup →
        ∀ f ∈ cfg.fields, headKey f.source = k →
        ∀ r ∈ traverse (Json.obj entries) [] [] cfg, f.aliasName ∉ rowKeys r)
    ∧ traverse (Json.obj entries) [] [] cfg =
        traverse (Json.obj (entries.filter (fun p => decide (p.1 ≠ k)))) [] [] cfg := by
  have hbk : branchResult (Json.obj entries) k cfg = [] := by
    unfold branchResult
    rw [hk]
    simp [harr]
  refine ⟨?_, ?_, ?_⟩
  · rw [traverse_nil, length_foldl_prodCombine]
    have hone : ([([] : Row)] : List Row).length = 1 := rfl
    rw [hone, one_mul]
    apply List.prod_eq_one
    intro n hn
    rcases List.mem_map.mp hn with ⟨l, hl, rfl⟩
    rcases List.mem_map.mp hl with ⟨p, hp, rfl⟩
    rcases List.mem_map.mp hp with ⟨key, hkey, rfl⟩
    by_cases hkk : key = k
    · subst hkk
      simp [hbk]
    · have hle := hother key hkey hkk
      rcases hbr : branchResult (Json.obj entries) key cfg with _ | ⟨r, _ | ⟨r2, rest⟩⟩
      · simp [hbr]
      · simp [hbr]
      · rw [hbr] at hle
        simp at hle
  · intro hnodup f hf hfk r hr ha
    rw [traverse_nil] at hr
    rcases keys_foldl_prodCombine hr ha with ⟨r0, hr0, ha0⟩ | ⟨l, hl, rr, hrr, harr'⟩
    · simp only [List.mem_singleton] at hr0
      subst hr0
      simp [rowKeys] at ha0
    · rcases List.mem_map.mp hl with ⟨p, hp, rfl⟩
      rcases List.mem_map.mp hp with ⟨key, hkey, rfl⟩
      by_cases hemp : (branchResult (Json.obj entries) key cfg).isEmpty = true
      · rw [if_pos hemp] at hrr
        simp only [List.mem_singleton] at hrr
        subst hrr
        simp [rowKeys] at harr'
      · rw [if_neg hemp] at hrr
        rcases mem_branchResult_elim hrr with ⟨d, hd⟩
        rcases traverse_keys hd harr' with h0 | ⟨f', hf', hfa', htake', _⟩
        · simp [rowKeys] at h0
        · simp only [List.length_cons, List.length_nil] at htake'
          have hhead : headKey f'.source = key := by
            have h1 := extract_path_take_one f'.source
            rw [htake'] at h1
            exact (List.cons.injEq _ _ _ _).mp h1.symm |>.1
          have hkne : key ≠ k := by
            intro he
            subst he
            rw [hbk] at hemp
            simp at hemp
          have hff : f' = f := List.inj_on_of_nodup_map hnodup hf' hf hfa'
          rw [hff] at hhead
          exact hkne (hhead.symm.trans hfk)
  · rw [traverse_nil, traverse_nil]
    refine congrArg (fun l : List (List Row) =>
      List.foldl prodCombine [[]]
        (List.map (fun p => if p.isEmpty then [([] : Row)] else p) l)) ?_
    refine List.map_congr_left fun key _ => ?_
    by_cases hkk : key = k
    · subst hkk
      rw [hbk]
      have hbk2 : branchResult (Json.obj (entries.filter (fun p => decide (p.1 ≠ key)))) key cfg
          = [] := by
        unfold branchResult
        have hnone : jGet (Json.obj (entries.filter (fun p => decide (p.1 ≠ key)))) key
            = none := jLookup_filter_self entries key
        rw [hnone]
      rw [hbk2]
    · have heq : jGet (Json.obj (entries.filter (fun p => decide (p.1 ≠ k)))) key
          = jGet (Json.obj entries) key := jLookup_filter_ne hkk
      unfold branchResult
      rw [heq]

/-- A configuration whose only array-explosion key is `items`, with one
sibling object branch. -/
def cfgItems : Config := ⟨[⟨"items[].sku", "sku"⟩, ⟨"header.id", "hid"⟩]⟩

/-- Witness for C2: a document with `items: []` and a plain object sibling
produces exactly one row, the `sku` alias is absent, and removing the
empty `items` entry leaves the result unchanged. -/
theorem claim_c2_witness :
    (traverse (Json.obj [("items", Json.arr []),
        ("header", Json.obj [("id", Json.str "7")])]) [] [] cfgItems).length = 1
    ∧ ((cfgItems.fields.map Field.aliasName).Nodup →
        ∀ f ∈ cfgItems.fields, headKey f.source = "items" →
        ∀ r ∈ traverse (Json.obj [("items", Json.arr []),
          ("header", Json.obj [("id", Json.str "7")])]) [] [] cfgItems,
          f.aliasName ∉ rowKeys r)
    ∧ traverse (Json.obj [("items", Json.arr []),
        ("header", Json.obj [("id", Json.str "7")])]) [] [] cfgItems =
      traverse (Json.obj ([("items", Json.arr []),
        ("header", Json.obj [("id", Json.str "7")])].filter
          (fun p => decide (p.1 ≠ "items")))) [] [] cfgItems :=
  claim_c2 [("items", Json.arr []), ("header", Json.obj [("id", Json.str "7")])]
    cfgItems "items" rfl rfl (by decide)

/-- When every element's recursive traversal is a known single row,
`extend`-ing per-element results is mapping that row constructor. -/
theorem flatMap_singleton_map {xs : List Json} {g : Json → List Row} {fx : Json → Row}
    (h : ∀ x ∈ xs, g x = [fx x]) : xs.flatMap g = xs.map fx := by
  induction xs with
  | nil => rfl
  | cons x rest ih =>
    simp only [List.flatMap_cons, List.map_cons]
    rw [h x (List.mem_cons_self _ _), ih (fun y hy => h y (List.mem_cons_of_mem _ hy))]
    rfl

/-- Combining the initial `[{}]` with the first partial result merges each
of its rows into the empty row. -/
theorem prodCombine_single_left (news : List Row) :
    prodCombine [([] : Row)] news = news.map (mergeRow []) := by
  simp [prodCombine]

/-- C4: a document with exactly two independent top-level array-explosion
keys of lengths M and N — each element yielding one row — produces the
M×N nested-loop cartesian product: the first branch varies slowest, within
a branch rows follow document array order, and every combination appears
exactly once. -/
theorem claim_c4 (data : Json) (cfg : Config) (k1 k2 : String)
    (xs ys : List Json) (fx fy : Json → Row)
    (hkeys : topLevelKeys cfg = [k1, k2])
    (h1 : jGet data k1 = some (Json.arr xs)) (h2 : jGet data k2 = some (Json.arr ys))
    (ha1 : isArrayKey cfg k1 = true) (ha2 : isArrayKey cfg k2 = true)
    (hxs : xs ≠ []) (hys : ys ≠ [])
    (hfx : ∀ x ∈ xs, traverse x [k1] [] cfg = [fx x])
    (hfy : ∀ y ∈ ys, traverse y [k2] [] cfg = [fy y]) :
    traverse data [] [] cfg =
      xs.flatMap (fun x => ys.map (fun y => mergeRow (mergeRow [] (fx x)) (fy y)))
    ∧ (traverse data [] [] cfg).length = xs.length * ys.length := by
  have hb1 : branchResult data k1 cfg = xs.map fx := by
    unfold branchResult
    rw [h1]
    simp only [ha1, if_true]
    exact flatMap_singleton_map hfx
  have hb2 : branchResult data k2 cfg = ys.map fy := by
    unfold branchResult
    rw [h2]
    simp only [ha2, if_true]
    exact flatMap_singleton_map hfy
  have hmain : traverse data [] [] cfg =
      xs.flatMap (fun x => ys.map (fun y => mergeRow (mergeRow [] (fx x)) (fy y))) := by
    rw [traverse_nil, hkeys]
    simp only [List.map_cons, List.map_nil, hb1, hb2]
    have hne1 : ((xs.map fx).isEmpty : Bool) = false := by
      rcases xs with _ | ⟨x, rest⟩
      · exact absurd rfl hxs
      · rfl
    have hne2 : ((ys.map fy).isEmpty : Bool) = false := by
      rcases ys with _ | ⟨y, rest⟩
      · exact absurd rfl hys
      · rfl
    rw [hne1, hne2]
    simp only [Bool.false_eq_true, if_false, List.foldl_cons, List.foldl_nil]
    rw [prodCombine_single_left]
    simp only [prodCombine, List.flatMap_map, List.map_map]
    rfl
  refine ⟨hmain, ?_⟩
  rw [hmain]
  have hlen : ∀ (zs : List Json),
      (zs.flatMap (fun x => ys.map (fun y => mergeRow (mergeRow [] (fx x)) (fy y)))).length
        = zs.length * ys.length := by
    intro zs
    induction zs with
    | nil => simp
    | cons z rest ih =>
      simp only [List.flatMap_cons, List.length_append, List.length_map, List.length_cons]
      rw [ih]
      ring
  exact hlen xs

/-- Two independent top-level arrays: 2 `a`-elements and 1 `b`-element. -/
def cfgPair : Config := ⟨[⟨"a[].v", "av"⟩, ⟨"b[].w", "bw"⟩]⟩

/-- Document with `a` of length 2 and `b` of length 1. -/
def docPair : Json := Json.obj
  [("a", Json.arr [Json.obj [("v", Json.str "1")], Json.obj [("v", Json.str "2")]]),
   ("b", Json.arr [Json.obj [("w", Json.str "5")]])]

/-- The single row each `a`-element yields. -/
def fxPair : Json → Row := fun x =>
  match x with
  | Json.obj (("v", w) :: _) => [("av", w)]
  | _ => []

/-- The single row each `b`-element yields. -/
def fyPair : Json → Row := fun y =>
  match y with
  | Json.obj (("w", w) :: _) => [("bw", w)]
  | _ => []

/-- Witness for C4: 2 × 1 elements produce exactly the 2 nested-loop rows. -/
theorem claim_c4_witness :
    traverse docPair [] [] cfgPair =
      [Json.obj [("v", Json.str "1")], Json.obj [("v", Json.str "2")]].flatMap
        (fun x => [Json.obj [("w", Json.str "5")]].map
          (fun y => mergeRow (mergeRow [] (fxPair x)) (fyPair y)))
    ∧ (traverse docPair [] [] cfgPair).length =
      [Json.obj [("v", Json.str "1")], Json.obj [("v", Json.str "2")]].length *
        [Json.obj [("w", Json.str "5")]].length :=
  claim_c4 docPair cfgPair "a" "b"
    [Json.obj [("v", Json.str "1")], Json.obj [("v", Json.str "2")]]
    [Json.obj [("w", Json.str "5")]] fxPair fyPair rfl rfl rfl rfl rfl
    (by simp) (by simp)
    (by
      intro x hx
      rcases List.mem_cons.mp hx with rfl | hx
      · rfl
      rcases List.mem_cons.mp hx with rfl | hx
      · rfl
      cases hx)
    (by
      intro y hy
      rcases List.mem_cons.mp hy with rfl | hy
      · rfl
      cases hy)

/-- A leaf step for a field with a different alias never disturbs a
row entry. -/
theorem lookup_leafStep_ne {data : Json} {pp : List String} {r : Row} {g : Field}
    {a : String} (h : a ≠ g.aliasName) :
    rowLookup (leafStep data pp r g) a = rowLookup r a := by
  unfold leafStep
  by_cases hpre : (extract_path g.source).1.take pp.length = pp
  · rw [if_pos hpre]
    rcases hdrop : (extract_path g.source).1.drop pp.length with _ | ⟨lk, _ | ⟨l2, rest⟩⟩
    · rfl
    · simp only [leafStepAux]
      rcases hj : jGet data lk with _ | v
      · rfl
      · exact rowLookup_rowInsert_ne h
    · rfl
  · rw [if_neg hpre]

/-- Later fields with other aliases keep an established row entry. -/
theorem lookup_foldl_leafStep {data : Json} {pp : List String} {a : String} {v : Json} :
    ∀ (L : List Field) (acc : Row),
      rowLookup acc a = some v → (∀ g ∈ L, g.aliasName ≠ a) →
      rowLookup (L.foldl (leafStep data pp) acc) a = some v := by
  intro L
  induction L with
  | nil => intro acc h _; exact h
  | cons g L ih =>
    intro acc hacc hL
    simp only [List.foldl_cons]
    refine ih _ ?_ (fun g' hg' => hL g' (List.mem_cons_of_mem _ hg'))
    rw [lookup_leafStep_ne (Ne.symm (hL g (List.mem_cons_self _ _)))]
    exact hacc

/-- The first pass extracts a present shallow leaf into the accumulated
row regardless of where the field sits in the configuration and of what
other (deeper) fields exist. -/
theorem leafRow_lookup {data : Json} {pp : List String} {row : Row} {cfg : Config}
    {f : Field} {leafKey : String} {v : Json}
    (hnodup : (cfg.fields.map Field.aliasName).Nodup)
    (hf : f ∈ cfg.fields)
    (htake : (extract_path f.source).1.take pp.length = pp)
    (hdrop : (extract_path f.source).1.drop pp.length = [leafKey])
    (hv : jGet data leafKey = some v) :
    rowLookup (leafRow data pp row cfg) f.aliasName = some v := by
  obtain ⟨L1, L2, hsplit⟩ := List.append_of_mem hf
  unfold leafRow
  rw [hsplit, List.foldl_append, List.foldl_cons]
  have hstep : leafStep data pp (L1.foldl (leafStep data pp) row) f
      = rowInsert (L1.foldl (leafStep data pp) row) (f.aliasName, v) := by
    unfold leafStep
    rw [if_pos htake, hdrop]
    simp [leafStepAux, hv]
  rw [hstep]
  apply lookup_foldl_leafStep
  · exact rowLookup_rowInsert_self _ _ _
  · intro g hg
    have hnodup' : ((L1 ++ f :: L2).map Field.aliasName).Nodup := by
      rw [← hsplit]; exact hnodup
    rw [List.map_append, List.map_cons] at hnodup'
    have h2 := hnodup'.of_append_right
    rw [List.nodup_cons] at h2
    intro he
    exact h2.1 (he ▸ List.mem_map_of_mem Field.aliasName hg)

/-- C1: a field whose source ends one level below the current path (a
shallow leaf) is written into every row the recursive call produces, for
every document, configuration and field order — the presence of
deeper-sibling fields sharing the path prefix cannot block it (their
aliases, distinct by the configuration invariant, are the only entries
nested branches can contribute); and in the §8-style sibling scenario both
the shallow and the deep value land in the same single row for both field
orders. -/
theorem claim_c1 :
    (∀ (data : Json) (k0 : String) (pp0 : List String) (row : Row) (cfg : Config)
      (f : Field) (leafKey : String) (v : Json),
      (cfg.fields.map Field.aliasName).Nodup →
      f ∈ cfg.fields →
      (extract_path f.source).1.take (k0 :: pp0).length = (k0 :: pp0) →
      (extract_path f.source).1.drop (k0 :: pp0).length = [leafKey] →
      jGet data leafKey = some v →
      ∀ r ∈ traverse data (k0 :: pp0) row cfg, rowLookup r f.aliasName = some v)
    ∧ traverse docSibling [] [] cfgDeepFirst =
        [[("action", Json.str "DeepFirst"), ("shallow_value", Json.str "SHALLOW"),
          ("deep_value", Json.str "DEEP")]]
    ∧ traverse docSibling [] [] cfgShallowFirst =
        [[("action", Json.str "DeepFirst"), ("shallow_value", Json.str "SHALLOW"),
          ("deep_value", Json.str "DEEP")]] := by
  refine ⟨?_, rfl, rfl⟩
  intro data k0 pp0 row cfg f leafKey v hnodup hf htake hdrop hv r hr
  have hflen : (extract_path f.source).1.length = (k0 :: pp0).length + 1 := by
    have hd := congrArg List.length hdrop
    simp only [List.length_drop, List.length_cons, List.length_nil] at hd
    simp only [List.length_cons]
    omega
  rw [traverse_cons] at hr
  rcases hkillC : arrKill ((arrayPathsOf data (k0 :: pp0) cfg).map (fun b =>
      match b.2.1 with
      | Json.arr items =>
        (items.flatMap (fun it => traverse it (k0 :: pp0 ++ [b.1]) [] cfg),
          items.isEmpty)
      | _ => (([] : List Row), false))) with _ | arrResults
  · rw [hkillC] at hr
    simp at hr
  · rw [hkillC] at hr
    have hr2 : r ∈ (if (!((((dictPathsOf data (k0 :: pp0) cfg).map
          (fun b => traverse b.2.1 (k0 :: pp0 ++ [b.1]) [] cfg)).filter
          (fun l => !l.isEmpty)) ++ arrResults).isEmpty) = true then
        ((((dictPathsOf data (k0 :: pp0) cfg).map
          (fun b => traverse b.2.1 (k0 :: pp0 ++ [b.1]) [] cfg)).filter
          (fun l => !l.isEmpty)) ++ arrResults).foldl prodCombine
          [leafRow data (k0 :: pp0) row cfg]
      else if (!(leafRow data (k0 :: pp0) row cfg).isEmpty) = true then
        [leafRow data (k0 :: pp0) row cfg]
      else []) := hr
    clear hr
    cases hne : ((((dictPathsOf data (k0 :: pp0) cfg).map
        (fun b => traverse b.2.1 (k0 :: pp0 ++ [b.1]) [] cfg)).filter
        (fun l => !l.isEmpty)) ++ arrResults).isEmpty with
    | true =>
      rw [hne] at hr2
      rw [if_neg (by simp)] at hr2
      cases hcr : (leafRow data (k0 :: pp0) row cfg).isEmpty with
      | true =>
        rw [hcr] at hr2
        simp at hr2
      | false =>
        rw [hcr] at hr2
        rw [if_pos (by simp)] at hr2
        simp only [List.mem_singleton] at hr2
        subst hr2
        exact leafRow_lookup hnodup hf htake hdrop hv
    | false =>
      rw [hne] at hr2
      rw [if_pos (by simp)] at hr2
      refine lookup_foldl_prodCombine ?_ ?_ r hr2
      · intro r0 hr0
        simp only [List.mem_singleton] at hr0
        subst hr0
        exact leafRow_lookup hnodup hf htake hdrop hv
      · intro l hl rr hrr ha
        have hdeep : ∃ k1 d, rr ∈ traverse d (k0 :: pp0 ++ [k1]) [] cfg := by
          rcases List.mem_append.mp hl with hld | hla
          · rcases List.mem_map.mp (List.mem_of_mem_filter hld) with ⟨b, _, rfl⟩
            exact ⟨b.1, b.2.1, hrr⟩
          · rcases arrKill_some_mem hkillC l hla with ⟨p, hp, rfl⟩
            rcases List.mem_map.mp hp with ⟨b, _, rfl⟩
            rcases hb21 : b.2.1 with _ | _ | _ | _ | items | os <;>
              rw [hb21] at hrr <;> simp only at hrr
            · cases hrr
            · cases hrr
            · cases hrr
            · cases hrr
            · rcases List.mem_flatMap.mp hrr with ⟨it, _, hit⟩
              exact ⟨b.1, it, hit⟩
            · cases hrr
        rcases hdeep with ⟨k1, d, hd⟩
        rcases traverse_keys hd ha with h0 | ⟨f', hf', hfa', _, hlen'⟩
        · simp [rowKeys] at h0
        · have hne' : f' ≠ f := by
            intro he
            subst he
            simp only [List.length_append, List.length_cons, List.length_nil] at hlen' hflen
            omega
          exact hne' (List.inj_on_of_nodup_map hnodup hf' hf hfa')

/-- Witness for C1: in the deep-first configuration, the shallow leaf at
`body.path.to.shallow` is found in the (single) row of the recursive call
at `body.path.to`. -/
theorem claim_c1_witness :
    rowLookup [("shallow_value", Json.str "SHALLOW"), ("deep_value", Json.str "DEEP")]
      "shallow_value" = some (Json.str "SHALLOW") :=
  claim_c1.1 (Json.obj [("shallow", Json.str "SHALLOW"),
      ("deep", Json.obj [("value", Json.str "DEEP")])])
    "body" ["path", "to"] [] cfgDeepFirst
    ⟨"body.path.to.shallow", "shallow_value"⟩ "shallow" (Json.str "SHALLOW")
    (by decide) (List.Mem.tail _ (List.Mem.tail _ (List.Mem.head _))) rfl rfl rfl
    [("shallow_value", Json.str "SHALLOW"), ("deep_value", Json.str "DEEP")]
    (List.Mem.head _)

/-- C5 counterexample: parsing the empty source path raises nothing — the
code returns the single empty segment with no array flag — while the
spec-modelled Field Path Model fails with `InvalidFieldSpec` there; the
code has no such error (the claim, as stated, is false on the code). -/
theorem claim_c5_counterexample :
    extract_path "" = ([""], false)
    ∧ extract_path_spec "" = Except.error "InvalidFieldSpec" :=
  ⟨rfl, rfl⟩

/-- C5 (amended): parsing a field source path string raises no error for
any input, the empty string included; every input yields at least one
segment, and the empty input yields exactly the single empty segment with
the array flag unset. -/
theorem claim_c5_amended :
    (∀ s : String, 1 ≤ (extract_path s).1.length)
    ∧ extract_path "" = ([""], false) := by
  refine ⟨fun s => ?_, rfl⟩
  unfold extract_path
  simp only [List.length_map]
  exact List.length_pos.mpr (splitOnChar_ne_nil '.' s.data)

/-- C6: converting an integer column, a value one above the int64 maximum
becomes null with a hard error while the rest of the column still
converts — but a value one below the int64 minimum does NOT become null:
`float(-2^63 - 1)` rounds to exactly `-2^63`, the `float_val <
iinfo.min` check misses it, and it converts silently to int64 min with no
diagnostic, contradicting the claim for the underflow side. -/
theorem claim_c6_eval :
    to_integer_col [some "9223372036854775808", some "-9223372036854775809", some "5"]
      = ([none, some (-9223372036854775808), some 5],
         ⟨[], ["Integer overflow: exceeds int64 max"]⟩) := by
  decide

/-- C7: numeric coercion maps `"$1,234.56"` to 1234.56, `"25%"` to 0.25,
and integer coercion maps `"1,000,000"` to 1000000 — whitespace trimmed,
currency stripped, thousands-separator commas removed, trailing percent
divides by 100. -/
theorem claim_c7 :
    ((to_numeric_val "$1,234.56").1.map Dec.toRat = some (1234.56 : ℚ))
    ∧ ((to_numeric_val "25%").1.map Dec.toRat = some (0.25 : ℚ))
    ∧ to_integer_col [some "1,000,000"] = ([some 1000000], ⟨[], []⟩) := by
  refine ⟨?_, ?_, by decide⟩
  · have h : (to_numeric_val "$1,234.56").1 = some ⟨123456, 2⟩ := by decide
    rw [h]
    simp only [Option.map_some', Option.some.injEq]
    norm_num [Dec.toRat]
  · have h : (to_numeric_val "25%").1 = some ⟨25, 2⟩ := by decide
    rw [h]
    simp only [Option.map_some', Option.some.injEq]
    norm_num [Dec.toRat]

/-- C8 counterexample: after `set_file_metadata("", ...)` both metadata
fields have been set, yet assembly still raises the missing-metadata
error — the empty-string source identifier is falsy under the Python
truthiness guard `if not self.filepath`, so the claim's "if both were set,
assembly does not raise" fails as stated. -/
theorem claim_c8_counterexample :
    bothMetadataSet (set_file_metadata initState "" "2024-01-15T00:00:00Z")
    ∧ create_dataframes (set_file_metadata initState "" "2024-01-15T00:00:00Z") [] []
        = Except.error "Filepath not set in JsonProcessor" :=
  ⟨⟨by simp [set_file_metadata], by simp [set_file_metadata]⟩, rfl⟩

/-- C8 (amended): for every state reachable through the public interface,
assembly fails with the missing-metadata error whenever it runs before
both the source identifier and the last-modified instant were set — and in
that case no table is produced, the error being raised before any
row-building — while if both were set with a non-empty source identifier,
assembly does not raise this error. -/
theorem claim_c8_amended : ∀ (st : ProcState), reachableState st →
    ∀ (config : List (String × Config)) (split : List (String × List Json)),
    (¬ bothMetadataSet st →
      create_dataframes st config split = Except.error "Filepath not set in JsonProcessor")
    ∧ (bothMetadataSet st → st.filepath ≠ some "" →
      ∃ out, create_dataframes st config split = Except.ok out) := by
  rintro st (rfl | ⟨st₀, f, m, rfl⟩) config split
  · constructor
    · intro _
      rfl
    · intro hb _
      exact absurd rfl hb.1
  · constructor
    · intro hnb
      exact absurd ⟨by simp [set_file_metadata], by simp [set_file_metadata]⟩ hnb
    · intro _ hfe
      have hf : f ≠ "" := by
        intro he
        subst he
        exact hfe rfl
      have hfe2 : f.isEmpty = false := by
        rcases h : f.isEmpty
        · rfl
        · exact absurd ((String.isEmpty_iff f).mp h) hf
      unfold create_dataframes
      rw [if_neg (by simp [filepathTruthy, set_file_metadata, hfe2])]
      exact ⟨_, rfl⟩

/-- Witness for C8 (amended): with a non-empty source identifier set,
assembly succeeds. -/
theorem claim_c8_witness :
    ∃ out, create_dataframes
      (set_file_metadata initState "data/file.json" "2024-01-15T00:00:00Z") [] []
        = Except.ok out :=
  (claim_c8_amended _ (Or.inr ⟨initState, _, _, rfl⟩) [] []).2
    ⟨by simp [set_file_metadata], by simp [set_file_metadata]⟩
    (by simp [set_file_metadata])

/-- C9 counterexample: coercing an already-typed int64 column holding the
int64 maximum does not return it unchanged — `float(2^63 - 1)` rounds up
to `2^63`, the overflow check fires, and the value becomes null with a
hard error. -/
theorem claim_c9_counterexample :
    enforceTyped (TypedCol.intCol [some (2 ^ 63 - 1)])
      = (TypedCol.intCol [none], ["Integer overflow: exceeds int64 max"])
    ∧ enforceTyped (TypedCol.intCol [some (2 ^ 63 - 1)])
      ≠ (TypedCol.intCol [some (2 ^ 63 - 1)], []) := by
  constructor <;> decide

/-- `safe_int` leaves an integer unchanged when it survives the float64
round trip (magnitude at most `2^53`). -/
theorem safe_int_int_small {n : Int} (h : n.natAbs ≤ 2 ^ 53) :
    safe_int_int n = (some n, []) := by
  have hfr : froundInt n = n := by
    unfold froundInt
    rw [if_pos h]
  have hn : n.natAbs ≤ 9007199254740992 := by
    rw [show (2 : Nat) ^ 53 = 9007199254740992 from by norm_num] at h
    exact h
  have h1 : ¬(n > int64Max) := by
    unfold int64Max
    rw [show ((2 : Int) ^ 63 - 1 : Int) = 9223372036854775807 from by norm_num]
    omega
  have h2 : ¬(n < int64Min) := by
    unfold int64Min
    rw [show (-((2 : Int) ^ 63) : Int) = -9223372036854775808 from by norm_num]
    omega
  simp only [safe_int_int, hfr]
  rw [if_neg h1, if_neg h2]

/-- Concatenating empty per-value diagnostics yields none. -/
theorem flatMap_nil_const {α β : Type} (l : List α) :
    l.flatMap (fun _ => ([] : List β)) = [] := by
  induction l with
  | nil => rfl
  | cons x rest ih => simp [List.flatMap_cons, ih]

/-- C9 (amended): the smart-coercion layer is the identity on already-typed
float, boolean and timestamp columns, on string columns containing none of
the `'nan'` sentinels, and on integer columns whose values all have
magnitude at most `2^53` (exactly float64-representable); integer columns
with larger values may drift or be nulled, as the counterexample shows. -/
theorem claim_c9_amended :
    (∀ vs, enforceTyped (TypedCol.floatCol vs) = (TypedCol.floatCol vs, []))
    ∧ (∀ vs, enforceTyped (TypedCol.boolCol vs) = (TypedCol.boolCol vs, []))
    ∧ (∀ vs, enforceTyped (TypedCol.timeCol vs) = (TypedCol.timeCol vs, []))
    ∧ (∀ vs : List (Option String),
        (∀ v ∈ vs, v ≠ some "nan" ∧ v ≠ some "NaN" ∧ v ≠ some "NAN") →
        enforceTyped (TypedCol.strCol vs) = (TypedCol.strCol vs, []))
    ∧ (∀ vs : List (Option Int), (∀ n : Int, some n ∈ vs → n.natAbs ≤ 2 ^ 53) →
        enforceTyped (TypedCol.intCol vs) = (TypedCol.intCol vs, [])) := by
  refine ⟨fun vs => rfl, ?_, fun vs => rfl, ?_, ?_⟩
  · intro vs
    simp only [enforceTyped]
    refine congrArg (fun l => (TypedCol.boolCol l, ([] : List String))) ?_
    have hid : ∀ v : Option Bool, v.bind convert_bool_bool = v := by
      rintro (_ | b)
      · rfl
      · cases b <;> rfl
    exact (List.map_congr_left fun v _ => hid v).trans (List.map_id vs)
  · intro vs hs
    simp only [enforceTyped]
    refine congrArg (fun l => (TypedCol.strCol l, ([] : List String))) ?_
    refine (List.map_congr_left fun v hv => ?_).trans (List.map_id vs)
    rcases hs v hv with ⟨h1, h2, h3⟩
    unfold sentinelNull
    rw [if_neg (by tauto)]
    rfl
  · intro vs h
    simp only [enforceTyped]
    have hpt : vs.map (fun v =>
        match v with
        | none => ((none : Option Int), ([] : List String))
        | some n => safe_int_int n) = vs.map (fun v => (v, ([] : List String))) := by
      refine List.map_congr_left fun v hv => ?_
      rcases v with _ | n
      · rfl
      · exact safe_int_int_small (h n hv)
    rw [hpt, List.map_map, List.flatMap_map]
    have h1 : List.map (Prod.fst ∘ fun v : Option Int => (v, ([] : List String))) vs
        = vs :=
      (List.map_congr_left fun v _ => rfl).trans (List.map_id vs)
    rw [h1]
    exact congrArg (fun l => (TypedCol.intCol vs, l)) (flatMap_nil_const vs)

/-- Witness for C9 (amended): small-integer and sentinel-free string
columns pass through unchanged. -/
theorem claim_c9_witness :
    enforceTyped (TypedCol.intCol [some 5, none]) = (TypedCol.intCol [some 5, none], [])
    ∧ enforceTyped (TypedCol.strCol [some "x"]) = (TypedCol.strCol [some "x"], []) := by
  constructor
  · refine claim_c9_amended.2.2.2.2 [some 5, none] ?_
    intro n hn
    rcases List.mem_cons.mp hn with h | h
    · injection h with h
      subst h
      decide
    · rcases List.mem_cons.mp h with h2 | h2
      · exact absurd h2 (by simp)
      · cases h2
  · refine claim_c9_amended.2.2.2.1 [some "x"] ?_
    intro v hv
    rcases List.mem_cons.mp hv with rfl | h
    · exact ⟨by simp, by simp, by simp⟩
    · cases h

end Rowhouse
